import Mathlib

/-!
Verification of the indexed binary heap algorithms of iheap.h.

The C++ code operates on a caller-owned random-access sequence of
(priority, key) entries, plus a caller-owned key-to-slot index map exposed
through a mutable accessor.  We shallow-embed this as a `State P K`
carrying the sequence as a function `Nat → P × K` (random access) and the
index map as a function `K → Int` (the C++ `int` slot, `-1` meaning
absent).  The active range `[begin, end)` is represented by its length
`n`; all operations act on slots `0, …, n-1` and leave the rest of the
underlying storage alone, which is what lets `sort` recycle the tail.

The comparator is an arbitrary `Bool`-valued binary relation on entries,
exactly like the C++ `Compare` template parameter; theorems that need it
assume the strict-weak-order facts the spec demands (irreflexive,
transitive, with transitive negation).
-/

set_option autoImplicit false
set_option linter.unusedSectionVars false
set_option linter.unusedVariables false

namespace IHeap

variable {P K : Type} [DecidableEq K]

/-- The two caller-owned pieces of storage: the entry sequence (random
access, as in `begin[i]`) and the key-to-slot index map (`indexer`). -/
@[ext]
structure State (P K : Type) where
  arr : Nat → P × K
  idx : K → Int

/-- `swap(begin[i], begin[j])`. -/
def swapFun {α : Type} (f : Nat → α) (i j : Nat) : Nat → α :=
  fun t => if t = i then f j else if t = j then f i else f t

/-- `swap(indexer(a), indexer(b))`: exchange the two index-map cells. -/
def swapIdx (g : K → Int) (a b : K) : K → Int :=
  fun k => if k = a then g b else if k = b then g a else g k

/-- The paired swap used at every sift/swap site of the source:
`swap(begin[i], begin[j]); swap(indexer(begin[i].second), indexer(begin[j].second))`.
The index cells swapped are those of the keys stored at slots `i` and `j`
(reading them before or after the entry swap exchanges the same two cells). -/
def swapState (s : State P K) (i j : Nat) : State P K :=
  { arr := swapFun s.arr i j
    idx := swapIdx s.idx (s.arr i).2 (s.arr j).2 }

/-- `iheap::detail::bubble_down`'s inner selection: the most dominant
among slot `i` and its children `2*i+1`, `2*i+2` (those below `n`),
computed exactly like the `for (int c = 2*i+1; (c < n) && (c <= 2*i+2); ++c)`
loop: first the left child is compared against `m`, then the right child
against the updated `m`. -/
def downChild (comp : P × K → P × K → Bool) (f : Nat → P × K) (n i : Nat) : Nat :=
  let m1 := if 2*i+1 < n ∧ comp (f i) (f (2*i+1)) = true then 2*i+1 else i
  if 2*i+2 < n ∧ comp (f m1) (f (2*i+2)) = true then 2*i+2 else m1

theorem downChild_cases (comp : P × K → P × K → Bool) (f : Nat → P × K) (n i : Nat) :
    downChild comp f n i = i ∨
      (i < downChild comp f n i ∧ downChild comp f n i < n) := by
  simp only [downChild]
  split_ifs <;> omega

/-- The `while ((i > 0) && comp(begin[(i-1)/2], begin[i]))` loop of
`iheap::detail::bubble_up`: swap the entry (and index cell) with the
parent and continue from the parent. -/
def bubbleUpAux (comp : P × K → P × K → Bool) : Nat → State P K → State P K
  | i, s =>
    if 0 < i ∧ comp (s.arr ((i-1)/2)) (s.arr i) = true then
      bubbleUpAux comp ((i-1)/2) (swapState s ((i-1)/2) i)
    else s
termination_by i _ => i
decreasing_by omega

/-- `iheap::detail::bubble_up(begin, end, it, indexer, comp)` with
`it - begin = j` and `end - begin = n`; the guard `(it < begin) || (it >= end)`
becomes `¬ j < n` (slots are nonnegative here). -/
def bubble_up (comp : P × K → P × K → Bool) (n j : Nat) (s : State P K) : State P K :=
  if j < n then bubbleUpAux comp j s else s

/-- The `while (i < n)` loop of `iheap::detail::bubble_down`: find the
most dominant among slot `i` and its children; stop if it is `i` itself,
otherwise swap entry and index cell with that child and continue there. -/
def bubbleDownAux (comp : P × K → P × K → Bool) (n : Nat) :
    Nat → State P K → State P K
  | i, s =>
    if i < n then
      if h : downChild comp s.arr n i = i then s
      else bubbleDownAux comp n (downChild comp s.arr n i)
        (swapState s i (downChild comp s.arr n i))
    else s
termination_by i _ => n - i
decreasing_by
  have := downChild_cases comp s.arr n i
  omega

/-- `iheap::detail::bubble_down(begin, end, it, indexer, comp)` with
`it - begin = j` and `end - begin = n`. -/
def bubble_down (comp : P × K → P × K → Bool) (n j : Nat) (s : State P K) : State P K :=
  if j < n then bubbleDownAux comp n j s else s

/-- `iheap::push`: with the new entry already placed at the last slot by
the caller, record its slot `(end - begin) - 1` in the index map, then
sift it toward the root.  No-op when `begin >= end`. -/
def push (comp : P × K → P × K → Bool) (n : Nat) (s : State P K) : State P K :=
  if n = 0 then s
  else
    bubble_up comp n (n-1)
      { s with idx := fun k => if k = (s.arr (n-1)).2 then (n : Int) - 1 else s.idx k }

/-- `iheap::pop`: swap the root entry with the last active entry (and
their index cells), mark the key now sitting at the last slot absent,
then sift from the root over the range shrunk by one.  No-op when
`begin >= end`. -/
def pop (comp : P × K → P × K → Bool) (n : Nat) (s : State P K) : State P K :=
  if n = 0 then s
  else
    let s1 := swapState s 0 (n-1)
    let s2 : State P K :=
      { s1 with idx := fun k => if k = (s1.arr (n-1)).2 then -1 else s1.idx k }
    bubble_down comp (n-1) 0 s2

/-- The `for (auto it = end - 1; it >= begin; --it)` loop of `iheap::make`:
`makeAux comp n j s` still has to process slots `j-1, …, 0`. -/
def makeAux (comp : P × K → P × K → Bool) (n : Nat) : Nat → State P K → State P K
  | 0, s => s
  | j+1, s => makeAux comp n j (bubble_down comp n j s)

/-- `iheap::make`: sift-toward-leaves at every slot from `end - 1` down to
`begin`.  No-op on an empty range. -/
def make (comp : P × K → P × K → Bool) (n : Nat) (s : State P K) : State P K :=
  if n = 0 then s else makeAux comp n n s

/-- `iheap::sort`: `while (begin < end) pop(begin, end--);` — pop over the
current range, then shrink it by one. -/
def sort (comp : P × K → P × K → Bool) : Nat → State P K → State P K
  | 0, s => s
  | n+1, s => sort comp n (pop comp (n+1) s)

/-- `iheap::update`: fail on an empty range or an absent key; otherwise
overwrite the entry's priority in place and sift toward the leaves if the
new entry is less dominant than the old one, toward the root if more
dominant, not at all otherwise. -/
def update (comp : P × K → P × K → Bool) (n : Nat) (s : State P K)
    (key : K) (value : P) : Bool × State P K :=
  if n = 0 then (false, s)
  else
    let index := s.idx key
    if index = -1 then (false, s)
    else
      let i := index.toNat
      let old := s.arr i
      let s1 : State P K :=
        { s with arr := fun t => if t = i then (value, (s.arr i).2) else s.arr t }
      if comp (s1.arr i) old = true then (true, bubble_down comp n i s1)
      else if comp old (s1.arr i) = true then (true, bubble_up comp n i s1)
      else (true, s1)

/-- `iheap::pop_key`: fail on an empty range or an absent key; otherwise
swap the key's entry with the last active entry (and index cells), mark
the removed key absent, shrink the range by one, and compare the entry
that inherited the slot against the removed one to pick the sift
direction. -/
def pop_key (comp : P × K → P × K → Bool) (n : Nat) (s : State P K)
    (key : K) : Bool × State P K :=
  if n = 0 then (false, s)
  else
    let index := s.idx key
    if index = -1 then (false, s)
    else
      let i := index.toNat
      let old := s.arr i
      let s1 := swapState s i (n-1)
      let s2 : State P K :=
        { s1 with idx := fun k => if k = (s1.arr (n-1)).2 then -1 else s1.idx k }
      if comp (s2.arr i) old = true then (true, bubble_down comp (n-1) i s2)
      else if comp old (s2.arr i) = true then (true, bubble_up comp (n-1) i s2)
      else (true, s2)

/-- Fuel-indexed version of the `bubble_up` loop, `none` when the fuel
runs out before the loop exits. -/
def bubbleUpFuel (comp : P × K → P × K → Bool) :
    Nat → Nat → State P K → Option (State P K)
  | 0, _, _ => none
  | fuel+1, i, s =>
    if 0 < i ∧ comp (s.arr ((i-1)/2)) (s.arr i) = true then
      bubbleUpFuel comp fuel ((i-1)/2) (swapState s ((i-1)/2) i)
    else some s

/-- Fuel-indexed version of the `bubble_down` loop. -/
def bubbleDownFuel (comp : P × K → P × K → Bool) (n : Nat) :
    Nat → Nat → State P K → Option (State P K)
  | 0, _, _ => none
  | fuel+1, i, s =>
    if i < n then
      if downChild comp s.arr n i = i then some s
      else bubbleDownFuel comp n fuel (downChild comp s.arr n i)
        (swapState s i (downChild comp s.arr n i))
    else some s

/-! ### The invariants of the spec -/

/-- Heap property over slots `[ℓ, n)` counted at the parents: every edge
whose parent slot is at least `ℓ` satisfies "the parent is not dominated
by the child".  `ℓ = 0` is the full heap property; positive `ℓ` is the
intermediate state of `make`. -/
def heapFrom (comp : P × K → P × K → Bool) (f : Nat → P × K) (n ℓ : Nat) : Prop :=
  ∀ c, c < n → 0 < c → ℓ ≤ (c-1)/2 → comp (f ((c-1)/2)) (f c) = false

/-- Spec invariant 1: for every non-root slot `c` with parent `(c-1)/2`,
the comparator does not judge the parent as dominated by the child. -/
def heapProp (comp : P × K → P × K → Bool) (f : Nat → P × K) (n : Nat) : Prop :=
  heapFrom comp f n 0

/-- `k` is carried by some entry of the active range. -/
def liveKey (s : State P K) (n : Nat) (k : K) : Prop :=
  ∃ i, i < n ∧ (s.arr i).2 = k

/-- Spec invariant 2: every slot's key resolves to that slot, and every
key with no live entry resolves to the absent sentinel `-1`. -/
def indexOK (s : State P K) (n : Nat) : Prop :=
  (∀ i, i < n → s.idx ((s.arr i).2) = (i : Int)) ∧
  (∀ k, ¬ liveKey s n k → s.idx k = -1)

/-- The facts the spec requires of the comparator: a strict (irreflexive,
transitive) dominance relation whose negation is also transitive (true of
any strict total or strict weak order, e.g. `std::less` on pairs). -/
def StrictComp (comp : P × K → P × K → Bool) : Prop :=
  (∀ a, comp a a = false) ∧
  (∀ a b c, comp a b = true → comp b c = true → comp a c = true) ∧
  (∀ a b c, comp a b = false → comp b c = false → comp a c = false)

/-- The entries of the active range, in slot order. -/
def entriesOf (f : Nat → P × K) (n : Nat) : List (P × K) :=
  (List.range n).map f

/-- Modelled from the spec wording of `make`: bulk-heapify by
sifting-toward-leaves starting from the last internal (non-leaf) slot down
through the root.  In a zero-based heap of size `n` the internal slots are
`0, …, n/2 - 1`, so this is the same descending loop started at `n/2`. -/
def makeFromLastInternal (comp : P × K → P × K → Bool) (n : Nat)
    (s : State P K) : State P K :=
  makeAux comp n (n/2) s

/-- A concrete comparator on `Nat × Nat` entries (max-heap on priorities),
used to instantiate the generic theorems. -/
def natComp : Nat × Nat → Nat × Nat → Bool :=
  fun a b => decide (a.1 < b.1)

/-- A concrete one-entry heap state: priority 5 under key 7 at slot 0. -/
def sA : State Nat Nat :=
  ⟨fun t => if t = 0 then (5, 7) else (0, 99), fun k => if k = 7 then 0 else -1⟩

/-- A concrete state whose index map is empty and whose slot 0 holds a
fresh entry (priority 5, key 7), ready to be pushed. -/
def sB : State Nat Nat :=
  ⟨fun _ => (5, 7), fun _ => -1⟩

/-! ### Basic lemmas about the swap primitives -/

theorem swapFun_left {α : Type} (f : Nat → α) (i j : Nat) : swapFun f i j i = f j := by
  simp [swapFun]

theorem swapFun_right {α : Type} (f : Nat → α) (i j : Nat) : swapFun f i j j = f i := by
  unfold swapFun
  by_cases h : j = i
  · rw [if_pos h, h]
  · rw [if_neg h, if_pos rfl]

theorem swapFun_other {α : Type} (f : Nat → α) (i j t : Nat) (h1 : t ≠ i) (h2 : t ≠ j) :
    swapFun f i j t = f t := by
  simp [swapFun, h1, h2]

theorem swapFun_self {α : Type} (f : Nat → α) (i : Nat) : swapFun f i i = f := by
  funext t
  unfold swapFun
  split_ifs with h
  · rw [h]
  · rfl

theorem swapIdx_left (g : K → Int) (a b : K) : swapIdx g a b a = g b := by
  simp [swapIdx]

theorem swapIdx_right (g : K → Int) (a b : K) : swapIdx g a b b = g a := by
  unfold swapIdx
  by_cases h : b = a
  · rw [if_pos h, h]
  · rw [if_neg h, if_pos rfl]

theorem swapIdx_other (g : K → Int) (a b k : K) (h1 : k ≠ a) (h2 : k ≠ b) :
    swapIdx g a b k = g k := by
  simp [swapIdx, h1, h2]

theorem swapIdx_self (g : K → Int) (a : K) : swapIdx g a a = g := by
  funext k
  unfold swapIdx
  split_ifs with h
  · rw [h]
  · rfl

theorem swapState_arr (s : State P K) (i j : Nat) :
    (swapState s i j).arr = swapFun s.arr i j := rfl

theorem swapState_idx (s : State P K) (i j : Nat) :
    (swapState s i j).idx = swapIdx s.idx (s.arr i).2 (s.arr j).2 := rfl

theorem swapState_self (s : State P K) (i : Nat) : swapState s i i = s := by
  ext1
  · exact swapFun_self s.arr i
  · exact swapIdx_self s.idx (s.arr i).2

/-! ### Permutation machinery for `entriesOf` -/

/-- Transposition of two indices. -/
def swapNat (i j : Nat) : Nat → Nat :=
  fun t => if t = i then j else if t = j then i else t

theorem swapNat_involutive (i j : Nat) : ∀ t, swapNat i j (swapNat i j t) = t := by
  intro t
  unfold swapNat
  split_ifs <;> omega

theorem swapFun_eq_comp {α : Type} (f : Nat → α) (i j : Nat) :
    swapFun f i j = fun t => f (swapNat i j t) := by
  funext t
  unfold swapFun swapNat
  split_ifs <;> rfl

theorem swapNat_lt (i j n : Nat) (hi : i < n) (hj : j < n) (t : Nat) (ht : t < n) :
    swapNat i j t < n := by
  unfold swapNat
  split_ifs <;> omega

theorem perm_range_swapNat (i j n : Nat) (hi : i < n) (hj : j < n) :
    ((List.range n).map (swapNat i j)).Perm (List.range n) := by
  have hinj : Function.Injective (swapNat i j) :=
    Function.Involutive.injective (swapNat_involutive i j)
  refine (List.perm_ext_iff_of_nodup ((List.nodup_range n).map hinj) (List.nodup_range n)).mpr ?_
  intro a
  constructor
  · intro ha
    rcases List.mem_map.1 ha with ⟨b, hb, rfl⟩
    exact List.mem_range.2 (swapNat_lt i j n hi hj b (List.mem_range.1 hb))
  · intro ha
    refine List.mem_map.2 ⟨swapNat i j a, ?_, swapNat_involutive i j a⟩
    exact List.mem_range.2 (swapNat_lt i j n hi hj a (List.mem_range.1 ha))

theorem entriesOf_swapFun_perm (f : Nat → P × K) (i j n : Nat) (hi : i < n) (hj : j < n) :
    (entriesOf (swapFun f i j) n).Perm (entriesOf f n) := by
  rw [entriesOf, entriesOf, swapFun_eq_comp, show (fun t => f (swapNat i j t)) = f ∘ swapNat i j from rfl,
    ← List.map_map]
  exact (perm_range_swapNat i j n hi hj).map f

theorem entriesOf_succ (f : Nat → P × K) (n : Nat) :
    entriesOf f (n+1) = entriesOf f n ++ [f n] := by
  rw [entriesOf, entriesOf, List.range_succ, List.map_append, List.map_cons, List.map_nil]

theorem mem_entriesOf (f : Nat → P × K) (n i : Nat) (hi : i < n) : f i ∈ entriesOf f n :=
  List.mem_map.2 ⟨i, List.mem_range.2 hi, rfl⟩

theorem exists_of_mem_entriesOf {f : Nat → P × K} {n : Nat} {e : P × K}
    (he : e ∈ entriesOf f n) : ∃ i, i < n ∧ f i = e := by
  rcases List.mem_map.1 he with ⟨i, hi, rfl⟩
  exact ⟨i, List.mem_range.1 hi, rfl⟩

theorem entriesOf_congr {f g : Nat → P × K} {n : Nat} (h : ∀ t, t < n → f t = g t) :
    entriesOf f n = entriesOf g n := by
  unfold entriesOf
  apply List.map_congr_left
  intro t ht
  exact h t (List.mem_range.1 ht)

/-! ### Index-consistency helpers -/

theorem indexOK_key_inj {s : State P K} {n : Nat} (h : indexOK s n) {i j : Nat}
    (hi : i < n) (hj : j < n) (hk : (s.arr i).2 = (s.arr j).2) : i = j := by
  have h1 := h.1 i hi
  have h2 := h.1 j hj
  rw [hk, h2] at h1
  omega

theorem liveKey_swapState {s : State P K} {n : Nat} (i j : Nat) (hi : i < n) (hj : j < n)
    (k : K) : liveKey (swapState s i j) n k ↔ liveKey s n k := by
  constructor
  · rintro ⟨t, ht, hkey⟩
    by_cases h1 : t = i
    · subst h1
      rw [swapState_arr, swapFun_left] at hkey
      exact ⟨j, hj, hkey⟩
    · by_cases h2 : t = j
      · subst h2
        rw [swapState_arr, swapFun_right] at hkey
        exact ⟨i, hi, hkey⟩
      · rw [swapState_arr, swapFun_other _ _ _ _ h1 h2] at hkey
        exact ⟨t, ht, hkey⟩
  · rintro ⟨t, ht, hkey⟩
    by_cases h1 : t = i
    · subst h1
      exact ⟨j, hj, by rw [swapState_arr, swapFun_right]; exact hkey⟩
    · by_cases h2 : t = j
      · subst h2
        exact ⟨i, hi, by rw [swapState_arr, swapFun_left]; exact hkey⟩
      · exact ⟨t, ht, by rw [swapState_arr, swapFun_other _ _ _ _ h1 h2]; exact hkey⟩

theorem indexOK_swapState {s : State P K} {n : Nat} (h : indexOK s n) {i j : Nat}
    (hi : i < n) (hj : j < n) : indexOK (swapState s i j) n := by
  by_cases hij : i = j
  · subst hij
    rw [swapState_self]
    exact h
  · have hkk : (s.arr i).2 ≠ (s.arr j).2 := fun he => hij (indexOK_key_inj h hi hj he)
    constructor
    · intro t ht
      by_cases h1 : t = i
      · subst h1
        rw [swapState_arr, swapFun_left, swapState_idx, swapIdx_right]
        exact h.1 t ht
      · by_cases h2 : t = j
        · subst h2
          rw [swapState_arr, swapFun_right, swapState_idx, swapIdx_left]
          exact h.1 t ht
        · rw [swapState_arr, swapFun_other _ _ _ _ h1 h2, swapState_idx]
          have hne1 : (s.arr t).2 ≠ (s.arr i).2 := fun he => h1 (indexOK_key_inj h ht hi he)
          have hne2 : (s.arr t).2 ≠ (s.arr j).2 := fun he => h2 (indexOK_key_inj h ht hj he)
          rw [swapIdx_other _ _ _ _ hne1 hne2]
          exact h.1 t ht
    · intro k hk
      rw [liveKey_swapState i j hi hj] at hk
      have hne1 : k ≠ (s.arr i).2 := fun he => hk ⟨i, hi, he.symm⟩
      have hne2 : k ≠ (s.arr j).2 := fun he => hk ⟨j, hj, he.symm⟩
      rw [swapState_idx, swapIdx_other _ _ _ _ hne1 hne2]
      exact h.2 k hk

theorem swapState_idx_untouched {s : State P K} {i j : Nat} {k : K}
    (h1 : (s.arr i).2 ≠ k) (h2 : (s.arr j).2 ≠ k) :
    (swapState s i j).idx k = s.idx k := by
  rw [swapState_idx, swapIdx_other _ _ _ _ (Ne.symm h1) (Ne.symm h2)]

/-! ### Comparator facts -/

theorem StrictComp.asymm {comp : P × K → P × K → Bool} (hc : StrictComp comp)
    {a b : P × K} (h : comp a b = true) : comp b a = false := by
  cases hba : comp b a
  · rfl
  · have := hc.2.1 a b a h hba
    rw [hc.1 a] at this
    exact Bool.noConfusion this

/-- If `b` dominates `a` and `c` does not dominate `a`, then `c` does not
dominate `b`. -/
theorem StrictComp.dom_not_dom {comp : P × K → P × K → Bool} (hc : StrictComp comp)
    {a b c : P × K} (hab : comp a b = true) (hac : comp a c = false) :
    comp b c = false := by
  cases hbc : comp b c
  · rfl
  · have := hc.2.1 a b c hab hbc
    rw [this] at hac
    exact Bool.noConfusion hac

/-! ### Lemmas about the sift-toward-root loop -/

theorem bubbleUpAux_arr_untouched (comp : P × K → P × K → Bool) (i : Nat) (s : State P K) :
    ∀ t, i < t → (bubbleUpAux comp i s).arr t = s.arr t := by
  induction i using Nat.strong_induction_on generalizing s with
  | _ i IH =>
    intro t ht
    rw [bubbleUpAux]
    split_ifs with h
    · rw [IH ((i-1)/2) (by omega) _ t (by omega), swapState_arr,
        swapFun_other _ _ _ _ (by omega) (by omega)]
    · rfl

theorem bubbleUpAux_perm (comp : P × K → P × K → Bool) (i : Nat) (s : State P K)
    {m : Nat} (him : i < m) :
    (entriesOf (bubbleUpAux comp i s).arr m).Perm (entriesOf s.arr m) := by
  induction i using Nat.strong_induction_on generalizing s with
  | _ i IH =>
    rw [bubbleUpAux]
    split_ifs with h
    · exact (IH ((i-1)/2) (by omega) _ (by omega)).trans
        (entriesOf_swapFun_perm s.arr ((i-1)/2) i m (by omega) him)
    · exact List.Perm.refl _

theorem bubbleUpAux_idx_untouched (comp : P × K → P × K → Bool) (i : Nat) (s : State P K)
    {k : K} (hk : ∀ t, t ≤ i → (s.arr t).2 ≠ k) :
    (bubbleUpAux comp i s).idx k = s.idx k := by
  induction i using Nat.strong_induction_on generalizing s with
  | _ i IH =>
    rw [bubbleUpAux]
    split_ifs with h
    · have hstep : ∀ t, t ≤ (i-1)/2 → ((swapState s ((i-1)/2) i).arr t).2 ≠ k := by
        intro t htp
        by_cases hteq : t = (i-1)/2
        · subst hteq
          rw [swapState_arr, swapFun_left]
          exact hk i (le_refl i)
        · rw [swapState_arr, swapFun_other _ _ _ _ hteq (by omega)]
          exact hk t (by omega)
      rw [IH ((i-1)/2) (by omega) _ hstep]
      exact swapState_idx_untouched (hk ((i-1)/2) (by omega)) (hk i (le_refl i))
    · rfl

theorem bubbleUpAux_indexOK (comp : P × K → P × K → Bool) (i : Nat) (s : State P K)
    {n : Nat} (h : indexOK s n) (hi : i < n) :
    indexOK (bubbleUpAux comp i s) n := by
  induction i using Nat.strong_induction_on generalizing s with
  | _ i IH =>
    rw [bubbleUpAux]
    split_ifs with hcond
    · exact IH ((i-1)/2) (by omega) _ (indexOK_swapState h (by omega) hi) (by omega)
    · exact h

theorem bubbleUpAux_heap (comp : P × K → P × K → Bool) (hc : StrictComp comp)
    {n : Nat} (i : Nat) (s : State P K) (hi : i < n)
    (ha : ∀ c, c < n → 0 < c → c ≠ i → comp (s.arr ((c-1)/2)) (s.arr c) = false)
    (hb : 0 < i → ∀ c, c < n → 0 < c → (c-1)/2 = i →
      comp (s.arr ((i-1)/2)) (s.arr c) = false) :
    heapProp comp (bubbleUpAux comp i s).arr n := by
  induction i using Nat.strong_induction_on generalizing s with
  | _ i IH =>
    rw [bubbleUpAux]
    split_ifs with hcond
    · obtain ⟨hi0, hcomp⟩ := hcond
      have hevp : (swapState s ((i-1)/2) i).arr ((i-1)/2) = s.arr i := by
        rw [swapState_arr, swapFun_left]
      have hevi : (swapState s ((i-1)/2) i).arr i = s.arr ((i-1)/2) := by
        rw [swapState_arr, swapFun_right]
      have hevo : ∀ t, t ≠ (i-1)/2 → t ≠ i → (swapState s ((i-1)/2) i).arr t = s.arr t := by
        intro t h1 h2
        rw [swapState_arr, swapFun_other _ _ _ _ h1 h2]
      refine IH ((i-1)/2) (by omega) _ (by omega) ?_ ?_
      · -- all edges except the one into the new hole `(i-1)/2`
        intro c hcn hc0 hcp
        by_cases hci : c = i
        · -- the swapped edge itself, now in the right order
          subst hci
          rw [hevp, hevi]
          exact hc.asymm hcomp
        · by_cases hpar_p : (c-1)/2 = (i-1)/2
          · -- sibling of the old hole: dominated through transitivity
            rw [hpar_p, hevp, hevo c hcp hci]
            have hold : comp (s.arr ((c-1)/2)) (s.arr c) = false := ha c hcn hc0 hci
            rw [hpar_p] at hold
            exact hc.dom_not_dom hcomp hold
          · by_cases hpar_i : (c-1)/2 = i
            · -- child of the old hole: the invariant hb is exactly this edge
              have hcgt : i < c := by omega
              rw [hpar_i, hevi, hevo c (by omega) hci]
              exact hb hi0 c hcn hc0 hpar_i
            · -- untouched edge
              rw [hevo ((c-1)/2) hpar_p hpar_i, hevo c hcp hci]
              exact ha c hcn hc0 hci
      · -- children of the new hole are dominated by its parent
        intro hp0 c hcn hc0 hpar
        rw [hevo (((i-1)/2-1)/2) (by omega) (by omega)]
        have hedge_p : comp (s.arr (((i-1)/2-1)/2)) (s.arr ((i-1)/2)) = false :=
          ha ((i-1)/2) (by omega) hp0 (by omega)
        by_cases hci : c = i
        · subst hci
          rw [hevi]
          exact hedge_p
        · rw [hevo c (by omega) hci]
          have hedge_c : comp (s.arr ((i-1)/2)) (s.arr c) = false := by
            have hthis := ha c hcn hc0 hci
            rw [hpar] at hthis
            exact hthis
          exact hc.2.2 _ _ _ hedge_p hedge_c
    · -- loop exit: either at the root or the parent already dominates
      intro c hcn hc0 _
      by_cases hci : c = i
      · subst hci
        rcases not_and_or.mp hcond with h0 | hnc
        · omega
        · exact Bool.eq_false_iff.mpr hnc
      · exact ha c hcn hc0 hci

/-! ### Lemmas about the child-selection step of the sift-toward-leaves loop -/

theorem downChild_eq (comp : P × K → P × K → Bool) (f : Nat → P × K) (n i : Nat) :
    downChild comp f n i =
      if 2*i+2 < n ∧ comp (f (if 2*i+1 < n ∧ comp (f i) (f (2*i+1)) = true
          then 2*i+1 else i)) (f (2*i+2)) = true
      then 2*i+2
      else if 2*i+1 < n ∧ comp (f i) (f (2*i+1)) = true then 2*i+1 else i := rfl

/-- When `downChild` stops (returns `i`), no child of `i` dominates `i`. -/
theorem downChild_spec_eq (comp : P × K → P × K → Bool) (f : Nat → P × K) (n i : Nat)
    (h : downChild comp f n i = i) :
    ∀ c, c < n → (c = 2*i+1 ∨ c = 2*i+2) → comp (f i) (f c) = false := by
  intro c hcn hcor
  rw [downChild_eq] at h
  by_cases h1 : 2*i+1 < n ∧ comp (f i) (f (2*i+1)) = true
  · exfalso
    rw [if_pos h1] at h
    split_ifs at h <;> omega
  · rw [if_neg h1] at h
    by_cases h2 : 2*i+2 < n ∧ comp (f i) (f (2*i+2)) = true
    · exfalso
      rw [if_pos h2] at h
      omega
    · rcases hcor with rfl | rfl
      · rcases not_and_or.mp h1 with h' | h'
        · exact absurd hcn h'
        · exact Bool.eq_false_iff.mpr h'
      · rcases not_and_or.mp h2 with h' | h'
        · exact absurd hcn h'
        · exact Bool.eq_false_iff.mpr h'

/-- When `downChild` picks a child, that child strictly dominates `i` and
is not dominated by the other child. -/
theorem downChild_spec_ne (comp : P × K → P × K → Bool) (hc : StrictComp comp)
    (f : Nat → P × K) (n i : Nat) (h : downChild comp f n i ≠ i) :
    i < downChild comp f n i ∧ downChild comp f n i < n ∧
    (downChild comp f n i = 2*i+1 ∨ downChild comp f n i = 2*i+2) ∧
    comp (f i) (f (downChild comp f n i)) = true ∧
    (∀ c, c < n → (c = 2*i+1 ∨ c = 2*i+2) → c ≠ downChild comp f n i →
      comp (f (downChild comp f n i)) (f c) = false) := by
  by_cases h1 : 2*i+1 < n ∧ comp (f i) (f (2*i+1)) = true
  · by_cases h2 : 2*i+2 < n ∧ comp (f (2*i+1)) (f (2*i+2)) = true
    · have hd : downChild comp f n i = 2*i+2 := by
        rw [downChild_eq, if_pos h1, if_pos h2]
      rw [hd]
      refine ⟨by omega, h2.1, Or.inr rfl, hc.2.1 _ _ _ h1.2 h2.2, ?_⟩
      intro c hcn hcor hcne
      have hceq : c = 2*i+1 := by omega
      subst hceq
      exact hc.asymm h2.2
    · have hd : downChild comp f n i = 2*i+1 := by
        rw [downChild_eq, if_pos h1, if_neg h2]
      rw [hd]
      refine ⟨by omega, h1.1, Or.inl rfl, h1.2, ?_⟩
      intro c hcn hcor hcne
      have hceq : c = 2*i+2 := by omega
      subst hceq
      rcases not_and_or.mp h2 with h' | h'
      · exact absurd hcn h'
      · exact Bool.eq_false_iff.mpr h'
  · by_cases h2 : 2*i+2 < n ∧ comp (f i) (f (2*i+2)) = true
    · have hd : downChild comp f n i = 2*i+2 := by
        rw [downChild_eq, if_neg h1, if_pos h2]
      rw [hd]
      refine ⟨by omega, h2.1, Or.inr rfl, h2.2, ?_⟩
      intro c hcn hcor hcne
      have hceq : c = 2*i+1 := by omega
      subst hceq
      have hfc : comp (f i) (f (2*i+1)) = false := by
        rcases not_and_or.mp h1 with h' | h'
        · exact absurd hcn h'
        · exact Bool.eq_false_iff.mpr h'
      exact hc.dom_not_dom h2.2 hfc
    · exfalso
      apply h
      rw [downChild_eq, if_neg h1, if_neg h2]

/-! ### Lemmas about the sift-toward-leaves loop -/

theorem bubbleDownAux_arr_untouched (comp : P × K → P × K → Bool) (n : Nat) :
    ∀ i (s : State P K) t, n ≤ t → (bubbleDownAux comp n i s).arr t = s.arr t := by
  suffices h : ∀ d i s t, n - i ≤ d → n ≤ t →
      (bubbleDownAux comp n i s).arr t = s.arr t by
    intro i s t ht
    exact h (n - i) i s t (le_refl _) ht
  intro d
  induction d with
  | zero =>
    intro i s t hd ht
    rw [bubbleDownAux, if_neg (by omega)]
  | succ d IH =>
    intro i s t hd ht
    rw [bubbleDownAux]
    split_ifs with h1 h2
    · rfl
    · have hm := downChild_cases comp s.arr n i
      rw [IH _ _ t (by omega) ht, swapState_arr,
        swapFun_other _ _ _ _ (by omega) (by omega)]
    · rfl

theorem bubbleDownAux_perm (comp : P × K → P × K → Bool) (n : Nat) :
    ∀ i (s : State P K) (m : Nat), n ≤ m →
      (entriesOf (bubbleDownAux comp n i s).arr m).Perm (entriesOf s.arr m) := by
  suffices h : ∀ d i s m, n - i ≤ d → n ≤ m →
      (entriesOf (bubbleDownAux comp n i s).arr m).Perm (entriesOf s.arr m) by
    intro i s m hm
    exact h (n - i) i s m (le_refl _) hm
  intro d
  induction d with
  | zero =>
    intro i s m hd hm
    rw [bubbleDownAux, if_neg (by omega)]
  | succ d IH =>
    intro i s m hd hm
    rw [bubbleDownAux]
    split_ifs with h1 h2
    · exact List.Perm.refl _
    · have hmc := downChild_cases comp s.arr n i
      refine (IH _ _ m (by omega) hm).trans ?_
      exact entriesOf_swapFun_perm s.arr i (downChild comp s.arr n i) m
        (by omega) (by omega)
    · exact List.Perm.refl _

theorem bubbleDownAux_idx_untouched (comp : P × K → P × K → Bool) (n : Nat) :
    ∀ i (s : State P K) (k : K), (∀ t, t < n → (s.arr t).2 ≠ k) →
      (bubbleDownAux comp n i s).idx k = s.idx k := by
  suffices h : ∀ d i s k, n - i ≤ d → (∀ t, t < n → (s.arr t).2 ≠ k) →
      (bubbleDownAux comp n i s).idx k = s.idx k by
    intro i s k hk
    exact h (n - i) i s k (le_refl _) hk
  intro d
  induction d with
  | zero =>
    intro i s k hd hk
    rw [bubbleDownAux, if_neg (by omega)]
  | succ d IH =>
    intro i s k hd hk
    rw [bubbleDownAux]
    split_ifs with h1 h2
    · rfl
    · have hmc := downChild_cases comp s.arr n i
      have hstep : ∀ t, t < n →
          ((swapState s i (downChild comp s.arr n i)).arr t).2 ≠ k := by
        intro t htn
        by_cases ht1 : t = i
        · subst ht1
          rw [swapState_arr, swapFun_left]
          exact hk _ (by omega)
        · by_cases ht2 : t = downChild comp s.arr n i
          · subst ht2
            rw [swapState_arr, swapFun_right]
            exact hk i h1
          · rw [swapState_arr, swapFun_other _ _ _ _ ht1 ht2]
            exact hk t htn
      rw [IH _ _ k (by omega) hstep]
      exact swapState_idx_untouched (hk i h1) (hk _ (by omega))
    · rfl

theorem bubbleDownAux_indexOK (comp : P × K → P × K → Bool) (n : Nat) :
    ∀ i (s : State P K) {N : Nat}, indexOK s N → n ≤ N →
      indexOK (bubbleDownAux comp n i s) N := by
  suffices h : ∀ d i s (N : Nat), n - i ≤ d → indexOK s N → n ≤ N →
      indexOK (bubbleDownAux comp n i s) N by
    intro i s N hOK hnN
    exact h (n - i) i s N (le_refl _) hOK hnN
  intro d
  induction d with
  | zero =>
    intro i s N hd hOK hnN
    rw [bubbleDownAux, if_neg (by omega)]
    exact hOK
  | succ d IH =>
    intro i s N hd hOK hnN
    rw [bubbleDownAux]
    split_ifs with h1 h2
    · exact hOK
    · have hmc := downChild_cases comp s.arr n i
      exact IH _ _ N (by omega) (indexOK_swapState hOK (by omega) (by omega)) hnN
    · exact hOK

theorem bubbleDownAux_heap (comp : P × K → P × K → Bool) (hc : StrictComp comp) (n : Nat) :
    ∀ i (s : State P K) (l : Nat), l ≤ i → i < n →
    (∀ c, c < n → 0 < c → l ≤ (c-1)/2 → (c-1)/2 ≠ i →
      comp (s.arr ((c-1)/2)) (s.arr c) = false) →
    (∀ c, c < n → (c-1)/2 = i → 0 < c → 0 < i → l ≤ (i-1)/2 →
      comp (s.arr ((i-1)/2)) (s.arr c) = false) →
    heapFrom comp (bubbleDownAux comp n i s).arr n l := by
  suffices h : ∀ d i s (l : Nat), n - i ≤ d → l ≤ i → i < n →
      (∀ c, c < n → 0 < c → l ≤ (c-1)/2 → (c-1)/2 ≠ i →
        comp (s.arr ((c-1)/2)) (s.arr c) = false) →
      (∀ c, c < n → (c-1)/2 = i → 0 < c → 0 < i → l ≤ (i-1)/2 →
        comp (s.arr ((i-1)/2)) (s.arr c) = false) →
      heapFrom comp (bubbleDownAux comp n i s).arr n l by
    intro i s l hl hi ha hb
    exact h (n - i) i s l (le_refl _) hl hi ha hb
  intro d
  induction d with
  | zero =>
    intro i s l hd hl hi ha hb
    exact absurd hi (by omega)
  | succ d IH =>
    intro i s l hd hl hi ha hb
    rw [bubbleDownAux]
    rw [if_pos hi]
    split_ifs with hstop
    · -- the loop stops: no child dominates, so every required edge holds
      intro c hcn hc0 hlc
      by_cases hpar : (c-1)/2 = i
      · rw [hpar]
        exact downChild_spec_eq comp s.arr n i hstop c hcn (by omega)
      · exact ha c hcn hc0 hlc hpar
    · -- the loop descends into the dominant child
      obtain ⟨hgt, hltn, hchild, hdom, hoth⟩ :=
        downChild_spec_ne comp hc s.arr n i hstop
      have hevi : (swapState s i (downChild comp s.arr n i)).arr i =
          s.arr (downChild comp s.arr n i) := by
        rw [swapState_arr, swapFun_left]
      have hevm : (swapState s i (downChild comp s.arr n i)).arr
          (downChild comp s.arr n i) = s.arr i := by
        rw [swapState_arr, swapFun_right]
      have hevo : ∀ t, t ≠ i → t ≠ downChild comp s.arr n i →
          (swapState s i (downChild comp s.arr n i)).arr t = s.arr t := by
        intro t ht1 ht2
        rw [swapState_arr, swapFun_other _ _ _ _ ht1 ht2]
      have hpm : (downChild comp s.arr n i - 1)/2 = i := by omega
      refine IH (downChild comp s.arr n i) _ l (by omega) (by omega) hltn ?_ ?_
      · intro c hcn hc0 hlc hpc
        by_cases hci : c = downChild comp s.arr n i
        · -- the swapped edge, now in the right order
          subst hci
          rw [hpm, hevi, hevm]
          exact hc.asymm hdom
        · by_cases hpar : (c-1)/2 = i
          · -- the other child of the old hole, not dominated by the chosen one
            rw [hpar, hevi, hevo c (by omega) hci]
            exact hoth c hcn (by omega) hci
          · by_cases hceqi : c = i
            · -- the edge from the old hole's parent down to the moved entry
              rw [hceqi, hevo ((i-1)/2) (by omega) (by omega), hevi]
              exact hb (downChild comp s.arr n i) hltn hpm (by omega) (by omega) (by omega)
            · -- untouched edge
              rw [hevo ((c-1)/2) hpar hpc, hevo c hceqi hci]
              exact ha c hcn hc0 hlc hpar
      · intro c hcn hpc hc0 hm0 hlm
        rw [hpm, hevi, hevo c (by omega) (by omega)]
        have hthis := ha c hcn hc0 (by omega) (by omega)
        rw [hpc] at hthis
        exact hthis

/-! ### The guarded primitives -/

theorem bubble_up_arr_untouched (comp : P × K → P × K → Bool) (n j : Nat) (s : State P K)
    (t : Nat) (ht : j < t) : (bubble_up comp n j s).arr t = s.arr t := by
  rw [bubble_up]
  split_ifs with h
  · exact bubbleUpAux_arr_untouched comp j s t ht
  · rfl

theorem bubble_up_perm (comp : P × K → P × K → Bool) (n j : Nat) (s : State P K)
    {m : Nat} (hm : j < m) :
    (entriesOf (bubble_up comp n j s).arr m).Perm (entriesOf s.arr m) := by
  rw [bubble_up]
  split_ifs with h
  · exact bubbleUpAux_perm comp j s hm
  · exact List.Perm.refl _

theorem bubble_up_idx_untouched (comp : P × K → P × K → Bool) (n j : Nat) (s : State P K)
    {k : K} (hk : ∀ t, t ≤ j → (s.arr t).2 ≠ k) :
    (bubble_up comp n j s).idx k = s.idx k := by
  rw [bubble_up]
  split_ifs with h
  · exact bubbleUpAux_idx_untouched comp j s hk
  · rfl

theorem bubble_up_indexOK (comp : P × K → P × K → Bool) (n j : Nat) (s : State P K)
    {N : Nat} (h : indexOK s N) (hj : j < N) : indexOK (bubble_up comp n j s) N := by
  rw [bubble_up]
  split_ifs with hg
  · exact bubbleUpAux_indexOK comp j s h hj
  · exact h

theorem bubble_up_heap (comp : P × K → P × K → Bool) (hc : StrictComp comp)
    {n : Nat} (j : Nat) (s : State P K) (hj : j < n)
    (ha : ∀ c, c < n → 0 < c → c ≠ j → comp (s.arr ((c-1)/2)) (s.arr c) = false)
    (hb : 0 < j → ∀ c, c < n → 0 < c → (c-1)/2 = j →
      comp (s.arr ((j-1)/2)) (s.arr c) = false) :
    heapProp comp (bubble_up comp n j s).arr n := by
  rw [bubble_up, if_pos hj]
  exact bubbleUpAux_heap comp hc j s hj ha hb

theorem bubble_down_arr_untouched (comp : P × K → P × K → Bool) (n j : Nat)
    (s : State P K) (t : Nat) (ht : n ≤ t) :
    (bubble_down comp n j s).arr t = s.arr t := by
  rw [bubble_down]
  split_ifs with h
  · exact bubbleDownAux_arr_untouched comp n j s t ht
  · rfl

theorem bubble_down_perm (comp : P × K → P × K → Bool) (n j : Nat) (s : State P K)
    {m : Nat} (hm : n ≤ m) :
    (entriesOf (bubble_down comp n j s).arr m).Perm (entriesOf s.arr m) := by
  rw [bubble_down]
  split_ifs with h
  · exact bubbleDownAux_perm comp n j s m hm
  · exact List.Perm.refl _

theorem bubble_down_idx_untouched (comp : P × K → P × K → Bool) (n j : Nat)
    (s : State P K) {k : K} (hk : ∀ t, t < n → (s.arr t).2 ≠ k) :
    (bubble_down comp n j s).idx k = s.idx k := by
  rw [bubble_down]
  split_ifs with h
  · exact bubbleDownAux_idx_untouched comp n j s k hk
  · rfl

theorem bubble_down_indexOK (comp : P × K → P × K → Bool) (n j : Nat) (s : State P K)
    {N : Nat} (h : indexOK s N) (hnN : n ≤ N) :
    indexOK (bubble_down comp n j s) N := by
  rw [bubble_down]
  split_ifs with hg
  · exact bubbleDownAux_indexOK comp n j s h hnN
  · exact h

theorem bubble_down_heap (comp : P × K → P × K → Bool) (hc : StrictComp comp)
    {n : Nat} (j l : Nat) (s : State P K) (hl : l ≤ j) (hj : j < n)
    (ha : ∀ c, c < n → 0 < c → l ≤ (c-1)/2 → (c-1)/2 ≠ j →
      comp (s.arr ((c-1)/2)) (s.arr c) = false)
    (hb : ∀ c, c < n → (c-1)/2 = j → 0 < c → 0 < j → l ≤ (j-1)/2 →
      comp (s.arr ((j-1)/2)) (s.arr c) = false) :
    heapFrom comp (bubble_down comp n j s).arr n l := by
  rw [bubble_down, if_pos hj]
  exact bubbleDownAux_heap comp hc n j s l hl hj ha hb

/-- In a heap, no entry dominates the root. -/
theorem heapProp_root (comp : P × K → P × K → Bool) (hc : StrictComp comp)
    {f : Nat → P × K} {n : Nat} (h : heapProp comp f n) :
    ∀ t, t < n → comp (f 0) (f t) = false := by
  intro t
  induction t using Nat.strong_induction_on with
  | _ t IH =>
    intro htn
    by_cases ht0 : t = 0
    · subst ht0
      exact hc.1 _
    · have hpar := h t htn (by omega) (by omega)
      have hroot := IH ((t-1)/2) (by omega) (by omega)
      exact hc.2.2 _ _ _ hroot hpar

/-- A heap over a range is a heap over any shorter range. -/
theorem heapFrom_mono (comp : P × K → P × K → Bool) {f : Nat → P × K} {n m l : Nat}
    (h : heapFrom comp f n l) (hmn : m ≤ n) : heapFrom comp f m l := by
  intro c hcm hc0 hlc
  exact h c (by omega) hc0 hlc

/-! ### Specification of `pop` -/

theorem pop_eq (comp : P × K → P × K → Bool) {n : Nat} (s : State P K) (hn : 0 < n) :
    pop comp n s = bubble_down comp (n-1) 0
      ⟨(swapState s 0 (n-1)).arr,
       fun k => if k = ((swapState s 0 (n-1)).arr (n-1)).2 then -1
                else (swapState s 0 (n-1)).idx k⟩ := by
  rw [pop, if_neg (by omega)]

/-- Marking the key of the outgoing last slot absent turns index
consistency over `n` slots into index consistency over `n - 1` slots. -/
theorem indexOK_shrink (s1 : State P K) {n : Nat} (hn : 0 < n) (h : indexOK s1 n) :
    indexOK ⟨s1.arr, fun k => if k = (s1.arr (n-1)).2 then -1 else s1.idx k⟩ (n-1) := by
  constructor
  · intro t ht
    have hne : (s1.arr t).2 ≠ (s1.arr (n-1)).2 :=
      fun he => absurd (indexOK_key_inj h (by omega) (by omega) he) (by omega)
    show (if (s1.arr t).2 = (s1.arr (n-1)).2 then -1 else s1.idx ((s1.arr t).2)) = (t:Int)
    rw [if_neg hne]
    exact h.1 t (by omega)
  · intro k hk
    show (if k = (s1.arr (n-1)).2 then -1 else s1.idx k) = -1
    by_cases hke : k = (s1.arr (n-1)).2
    · rw [if_pos hke]
    · rw [if_neg hke]
      apply h.2
      rintro ⟨t, htn, hkey⟩
      by_cases htl : t = n-1
      · subst htl
        exact hke hkey.symm
      · exact hk ⟨t, by omega, hkey⟩

theorem pop_spec (comp : P × K → P × K → Bool) (hc : StrictComp comp) {n : Nat}
    (s : State P K) (hn : 0 < n) (hh : heapProp comp s.arr n) (hOK : indexOK s n) :
    heapProp comp (pop comp n s).arr (n-1) ∧
    indexOK (pop comp n s) (n-1) ∧
    (pop comp n s).arr (n-1) = s.arr 0 ∧
    (∀ t, n ≤ t → (pop comp n s).arr t = s.arr t) ∧
    (pop comp n s).idx ((s.arr 0).2) = -1 ∧
    (∀ k, ¬ liveKey s n k → (pop comp n s).idx k = s.idx k) ∧
    ((entriesOf (pop comp n s).arr (n-1)) ++ [s.arr 0]).Perm (entriesOf s.arr n) ∧
    (∀ e, e ∈ entriesOf (pop comp n s).arr (n-1) → comp (s.arr 0) e = false) := by
  have h1OK : indexOK (swapState s 0 (n-1)) n :=
    indexOK_swapState hOK (by omega) (by omega)
  set s2 : State P K :=
    ⟨(swapState s 0 (n-1)).arr,
     fun k => if k = ((swapState s 0 (n-1)).arr (n-1)).2 then -1
              else (swapState s 0 (n-1)).idx k⟩ with hs2
  have hpe : pop comp n s = bubble_down comp (n-1) 0 s2 := pop_eq comp s hn
  have harr2 : s2.arr = swapFun s.arr 0 (n-1) := rfl
  have hlast : s2.arr (n-1) = s.arr 0 := by
    rw [harr2, swapFun_right]
  have h2OK : indexOK s2 (n-1) := indexOK_shrink (swapState s 0 (n-1)) hn h1OK
  have harr_other : ∀ t, t ≠ 0 → t ≠ n-1 → s2.arr t = s.arr t := by
    intro t h1 h2
    rw [harr2, swapFun_other _ _ _ _ h1 h2]
  have hkeys2 : ∀ t, t < n-1 → liveKey s n ((s2.arr t).2) := by
    intro t ht
    by_cases ht0 : t = 0
    · subst ht0
      rw [harr2, swapFun_left]
      exact ⟨n-1, by omega, rfl⟩
    · rw [harr_other t ht0 (by omega)]
      exact ⟨t, by omega, rfl⟩
  -- a key that is not live over the shrunken swapped range
  have hmain : heapProp comp (pop comp n s).arr (n-1) := by
    rw [hpe]
    by_cases h1 : n = 1
    · intro c hcn hc0 hcl
      exact absurd hcn (by omega)
    · refine bubble_down_heap comp hc 0 0 s2 (le_refl 0) (by omega) ?_ ?_
      · intro c hcn hc0 hcl hcne
        rw [harr_other ((c-1)/2) hcne (by omega), harr_other c (by omega) (by omega)]
        exact hh c (by omega) hc0 (by omega)
      · intro c hcn hpar hc0 h00
        exact absurd h00 (by omega)
  refine ⟨hmain, ?_, ?_, ?_, ?_, ?_, ?_, ?_⟩
  · rw [hpe]
    exact bubble_down_indexOK comp (n-1) 0 s2 h2OK (le_refl (n-1))
  · rw [hpe, bubble_down_arr_untouched comp (n-1) 0 s2 (n-1) (le_refl (n-1)), hlast]
  · intro t ht
    rw [hpe, bubble_down_arr_untouched comp (n-1) 0 s2 t (by omega),
      harr_other t (by omega) (by omega)]
  · rw [hpe]
    have hkne : ∀ t, t < n-1 → (s2.arr t).2 ≠ (s.arr 0).2 := by
      intro t ht he
      by_cases ht0 : t = 0
      · subst ht0
        rw [harr2, swapFun_left] at he
        exact absurd (indexOK_key_inj hOK (by omega) (by omega) he) (by omega)
      · rw [harr_other t ht0 (by omega)] at he
        exact absurd (indexOK_key_inj hOK (by omega) (by omega) he) (by omega)
    rw [bubble_down_idx_untouched comp (n-1) 0 s2 hkne]
    show (if (s.arr 0).2 = ((swapState s 0 (n-1)).arr (n-1)).2 then -1
          else (swapState s 0 (n-1)).idx ((s.arr 0).2)) = -1
    have hkeq : (s.arr 0).2 = ((swapState s 0 (n-1)).arr (n-1)).2 := by
      rw [swapState_arr, swapFun_right]
    rw [if_pos hkeq]
  · intro k hk
    rw [hpe]
    have hkne : ∀ t, t < n-1 → (s2.arr t).2 ≠ k := by
      intro t ht he
      exact hk (he ▸ hkeys2 t ht)
    rw [bubble_down_idx_untouched comp (n-1) 0 s2 hkne]
    have hne0 : k ≠ (s.arr 0).2 := fun he => hk ⟨0, by omega, he.symm⟩
    have hnel : k ≠ (s.arr (n-1)).2 := fun he => hk ⟨n-1, by omega, he.symm⟩
    show (if k = ((swapState s 0 (n-1)).arr (n-1)).2 then -1
          else (swapState s 0 (n-1)).idx k) = s.idx k
    rw [swapState_arr, swapFun_right, if_neg hne0]
    exact swapState_idx_untouched (fun he => hne0 he.symm) (fun he => hnel he.symm)
  · rw [hpe]
    have hp1 : (entriesOf (bubble_down comp (n-1) 0 s2).arr (n-1)).Perm
        (entriesOf s2.arr (n-1)) :=
      bubble_down_perm comp (n-1) 0 s2 (le_refl (n-1))
    have hp2 : (entriesOf s2.arr (n-1) ++ [s.arr 0]).Perm (entriesOf s.arr n) := by
      have hsucc : entriesOf s2.arr n = entriesOf s2.arr (n-1) ++ [s2.arr (n-1)] := by
        have hn' : n = (n-1) + 1 := by omega
        conv_lhs => rw [hn']
        rw [entriesOf_succ]
      rw [← hlast, ← hsucc, harr2]
      exact entriesOf_swapFun_perm s.arr 0 (n-1) n (by omega) (by omega)
    exact (hp1.append_right [s.arr 0]).trans hp2
  · intro e he
    rw [hpe] at he
    have hp1 : (entriesOf (bubble_down comp (n-1) 0 s2).arr (n-1)).Perm
        (entriesOf s2.arr (n-1)) :=
      bubble_down_perm comp (n-1) 0 s2 (le_refl (n-1))
    have hp2 : (entriesOf s2.arr (n-1) ++ [s.arr 0]).Perm (entriesOf s.arr n) := by
      have hsucc : entriesOf s2.arr n = entriesOf s2.arr (n-1) ++ [s2.arr (n-1)] := by
        have hn' : n = (n-1) + 1 := by omega
        conv_lhs => rw [hn']
        rw [entriesOf_succ]
      rw [← hlast, ← hsucc, harr2]
      exact entriesOf_swapFun_perm s.arr 0 (n-1) n (by omega) (by omega)
    have hmem : e ∈ entriesOf s.arr n := by
      apply hp2.mem_iff.mp
      exact List.mem_append.mpr (Or.inl (hp1.mem_iff.mp he))
    obtain ⟨t, htn, hte⟩ := exists_of_mem_entriesOf hmem
    rw [← hte]
    exact heapProp_root comp hc hh t htn

/-! ### Specification of `push` -/

theorem push_eq (comp : P × K → P × K → Bool) {n : Nat} (s : State P K) (hn : 0 < n) :
    push comp n s = bubble_up comp n (n-1)
      ⟨s.arr, fun k => if k = (s.arr (n-1)).2 then (n : Int) - 1 else s.idx k⟩ := by
  rw [push, if_neg (by omega)]

theorem push_spec (comp : P × K → P × K → Bool) (hc : StrictComp comp) {n : Nat}
    (s : State P K) (hn : 0 < n)
    (hh : heapProp comp s.arr (n-1)) (hOK : indexOK s (n-1))
    (hfresh : ¬ liveKey s (n-1) ((s.arr (n-1)).2)) :
    heapProp comp (push comp n s).arr n ∧
    indexOK (push comp n s) n ∧
    (entriesOf (push comp n s).arr n).Perm (entriesOf s.arr n) := by
  set s1 : State P K :=
    ⟨s.arr, fun k => if k = (s.arr (n-1)).2 then (n : Int) - 1 else s.idx k⟩ with hs1
  have hpe : push comp n s = bubble_up comp n (n-1) s1 := push_eq comp s hn
  have h1OK : indexOK s1 n := by
    constructor
    · intro t ht
      by_cases htl : t = n-1
      · have hkeq : (s.arr t).2 = (s.arr (n-1)).2 := by rw [htl]
        show (if (s.arr t).2 = (s.arr (n-1)).2 then (n : Int) - 1 else s.idx ((s.arr t).2))
            = (t : Int)
        rw [if_pos hkeq, htl]
        omega
      · have hne : (s.arr t).2 ≠ (s.arr (n-1)).2 :=
          fun he => hfresh (he ▸ ⟨t, by omega, rfl⟩)
        show (if (s.arr t).2 = (s.arr (n-1)).2 then (n : Int) - 1 else s.idx ((s.arr t).2))
            = (t : Int)
        rw [if_neg hne]
        exact hOK.1 t (by omega)
    · intro k hk
      have hne : k ≠ (s.arr (n-1)).2 := fun he => hk ⟨n-1, by omega, he.symm⟩
      show (if k = (s.arr (n-1)).2 then (n : Int) - 1 else s.idx k) = -1
      rw [if_neg hne]
      apply hOK.2
      rintro ⟨t, htn, hkey⟩
      exact hk ⟨t, by omega, hkey⟩
  refine ⟨?_, ?_, ?_⟩
  · rw [hpe]
    refine bubble_up_heap comp hc (n-1) s1 (by omega) ?_ ?_
    · intro c hcn hc0 hcl
      exact hh c (by omega) hc0 (by omega)
    · intro h0 c hcn hc0 hpar
      exact absurd hcn (by omega)
  · rw [hpe]
    exact bubble_up_indexOK comp n (n-1) s1 h1OK (by omega)
  · rw [hpe]
    exact bubble_up_perm comp n (n-1) s1 (by omega)

/-! ### Specification of `update` -/

theorem indexOK_of_keys_eq {s s' : State P K}
    (harr : ∀ t, (s'.arr t).2 = (s.arr t).2) (hidx : s'.idx = s.idx) {n : Nat}
    (h : indexOK s n) : indexOK s' n := by
  constructor
  · intro t ht
    rw [harr t, hidx]
    exact h.1 t ht
  · intro k hk
    rw [hidx]
    apply h.2
    rintro ⟨t, htn, hkey⟩
    exact hk ⟨t, htn, by rw [harr t]; exact hkey⟩

theorem update_spec (comp : P × K → P × K → Bool) (hc : StrictComp comp) {n : Nat}
    (s : State P K) {i : Nat} {k : K} (hi : i < n) (hk : (s.arr i).2 = k)
    (hh : heapProp comp s.arr n) (hOK : indexOK s n) (v : P) :
    (update comp n s k v).1 = true ∧
    heapProp comp (update comp n s k v).2.arr n ∧
    indexOK (update comp n s k v).2 n ∧
    (∀ t, n ≤ t → (update comp n s k v).2.arr t = s.arr t) := by
  have hidx : s.idx k = (i : Int) := by
    rw [← hk]
    exact hOK.1 i hi
  have h2 : ¬ (s.idx k = -1) := by
    rw [hidx]
    omega
  have hg1 : (n = 0) = False := eq_false (by omega)
  have hg2 : (((i : Nat) : Int) = -1) = False := eq_false (by omega)
  have hue : update comp n s k v =
      (if comp (v, (s.arr i).2) (s.arr i) = true
       then (true, bubble_down comp n i
         ⟨fun t => if t = i then (v, (s.arr i).2) else s.arr t, s.idx⟩)
       else if comp (s.arr i) (v, (s.arr i).2) = true
       then (true, bubble_up comp n i
         ⟨fun t => if t = i then (v, (s.arr i).2) else s.arr t, s.idx⟩)
       else (true, ⟨fun t => if t = i then (v, (s.arr i).2) else s.arr t, s.idx⟩)) := by
    simp only [update, hidx, Int.toNat_natCast, hg1, hg2, if_false,
      eq_self_iff_true, if_true]
  rw [hue]
  set s1 : State P K :=
    ⟨fun t => if t = i then (v, (s.arr i).2) else s.arr t, s.idx⟩ with hs1
  have harr1 : ∀ t, t ≠ i → s1.arr t = s.arr t := fun t ht => if_neg ht
  have harr1i : s1.arr i = (v, (s.arr i).2) := if_pos rfl
  have hkeys1 : ∀ t, (s1.arr t).2 = (s.arr t).2 := by
    intro t
    by_cases ht : t = i
    · subst ht
      rw [harr1i]
    · rw [harr1 t ht]
  have h1OK : indexOK s1 n := indexOK_of_keys_eq hkeys1 rfl hOK
  have hpedge : ∀ c, c < n → 0 < c → (c-1)/2 = i →
      comp (s.arr i) (s.arr c) = false := by
    intro c hcn hc0 hpar
    have hthis := hh c hcn hc0 (by omega)
    rw [hpar] at hthis
    exact hthis
  split_ifs with hd hu
  · -- new value less dominant: sift toward the leaves
    refine ⟨rfl, ?_, bubble_down_indexOK comp n i s1 h1OK (le_refl n), ?_⟩
    · refine bubble_down_heap comp hc i 0 s1 (by omega) hi ?_ ?_
      · intro c hcn hc0 hl0 hpar
        by_cases hci : c = i
        · rw [hci, harr1 ((i-1)/2) (by omega), harr1i]
          exact hc.2.2 _ _ _ (hh i hi (by omega) (by omega)) (hc.asymm hd)
        · rw [harr1 ((c-1)/2) hpar, harr1 c hci]
          exact hh c hcn hc0 (by omega)
      · intro c hcn hpar hc0 hi0 hl
        rw [harr1 ((i-1)/2) (by omega), harr1 c (by omega)]
        exact hc.2.2 _ _ _ (hh i hi hi0 (by omega)) (hpedge c hcn hc0 hpar)
    · intro t ht
      rw [bubble_down_arr_untouched comp n i s1 t ht, harr1 t (by omega)]
  · -- new value more dominant: sift toward the root
    refine ⟨rfl, ?_, bubble_up_indexOK comp n i s1 h1OK hi, ?_⟩
    · refine bubble_up_heap comp hc i s1 hi ?_ ?_
      · intro c hcn hc0 hci
        by_cases hpar : (c-1)/2 = i
        · rw [hpar, harr1i, harr1 c hci]
          exact hc.dom_not_dom hu (hpedge c hcn hc0 hpar)
        · rw [harr1 ((c-1)/2) hpar, harr1 c hci]
          exact hh c hcn hc0 (by omega)
      · intro hi0 c hcn hc0 hpar
        rw [harr1 ((i-1)/2) (by omega), harr1 c (by omega)]
        exact hc.2.2 _ _ _ (hh i hi hi0 (by omega)) (hpedge c hcn hc0 hpar)
    · intro t ht
      rw [bubble_up_arr_untouched comp n i s1 t (by omega), harr1 t (by omega)]
  · -- dominance unchanged: no sift at all
    refine ⟨rfl, ?_, h1OK, ?_⟩
    · intro c hcn hc0 hl0
      by_cases hci : c = i
      · rw [hci, harr1 ((i-1)/2) (by omega), harr1i]
        exact hc.2.2 _ _ _ (hh i hi (by omega) (by omega)) (Bool.eq_false_iff.mpr hu)
      · by_cases hpar : (c-1)/2 = i
        · rw [hpar, harr1i, harr1 c hci]
          exact hc.2.2 _ _ _ (Bool.eq_false_iff.mpr hd) (hpedge c hcn hc0 hpar)
        · rw [harr1 ((c-1)/2) hpar, harr1 c hci]
          exact hh c hcn hc0 (by omega)
    · intro t ht
      exact harr1 t (by omega)

/-! ### Specification of `pop_key` -/

theorem pop_key_spec (comp : P × K → P × K → Bool) (hc : StrictComp comp) {n : Nat}
    (s : State P K) {i : Nat} {k : K} (hi : i < n) (hk : (s.arr i).2 = k)
    (hh : heapProp comp s.arr n) (hOK : indexOK s n) :
    (pop_key comp n s k).1 = true ∧
    heapProp comp (pop_key comp n s k).2.arr (n-1) ∧
    indexOK (pop_key comp n s k).2 (n-1) ∧
    (pop_key comp n s k).2.idx k = -1 ∧
    ((entriesOf (pop_key comp n s k).2.arr (n-1)) ++ [s.arr i]).Perm
      (entriesOf s.arr n) := by
  have hidx : s.idx k = (i : Int) := by
    rw [← hk]
    exact hOK.1 i hi
  have hg1 : (n = 0) = False := eq_false (by omega)
  have hg2 : (((i : Nat) : Int) = -1) = False := eq_false (by omega)
  have hue : pop_key comp n s k =
      (if comp ((swapState s i (n-1)).arr i) (s.arr i) = true
       then (true, bubble_down comp (n-1) i
         ⟨(swapState s i (n-1)).arr,
          fun k2 => if k2 = ((swapState s i (n-1)).arr (n-1)).2 then -1
                    else (swapState s i (n-1)).idx k2⟩)
       else if comp (s.arr i) ((swapState s i (n-1)).arr i) = true
       then (true, bubble_up comp (n-1) i
         ⟨(swapState s i (n-1)).arr,
          fun k2 => if k2 = ((swapState s i (n-1)).arr (n-1)).2 then -1
                    else (swapState s i (n-1)).idx k2⟩)
       else (true,
         ⟨(swapState s i (n-1)).arr,
          fun k2 => if k2 = ((swapState s i (n-1)).arr (n-1)).2 then -1
                    else (swapState s i (n-1)).idx k2⟩)) := by
    simp only [pop_key, hidx, Int.toNat_natCast, hg1, hg2, if_false]
  rw [hue]
  set s2 : State P K :=
    ⟨(swapState s i (n-1)).arr,
     fun k2 => if k2 = ((swapState s i (n-1)).arr (n-1)).2 then -1
               else (swapState s i (n-1)).idx k2⟩ with hs2
  have harr2 : s2.arr = swapFun s.arr i (n-1) := rfl
  have hlast : s2.arr (n-1) = s.arr i := by
    rw [harr2, swapFun_right]
  have hi_eval : s2.arr i = s.arr (n-1) := by
    rw [harr2, swapFun_left]
  have harr_other : ∀ t, t ≠ i → t ≠ n-1 → s2.arr t = s.arr t := by
    intro t h1 h2
    rw [harr2, swapFun_other _ _ _ _ h1 h2]
  have h1OK : indexOK (swapState s i (n-1)) n :=
    indexOK_swapState hOK hi (by omega)
  have h2OK : indexOK s2 (n-1) :=
    indexOK_shrink (swapState s i (n-1)) (by omega) h1OK
  have hkeyl : ((swapState s i (n-1)).arr (n-1)).2 = k := by
    rw [swapState_arr, swapFun_right, hk]
  have hidx_k : s2.idx k = -1 := by
    show (if k = ((swapState s i (n-1)).arr (n-1)).2 then -1
          else (swapState s i (n-1)).idx k) = -1
    rw [if_pos hkeyl.symm]
  have hknot2 : ∀ t, t < n-1 → (s2.arr t).2 ≠ k := by
    intro t ht he
    have heq := indexOK_key_inj h1OK (show t < n by omega) (show n-1 < n by omega)
      (he.trans hkeyl.symm)
    omega
  have hpedge : ∀ c, c < n → 0 < c → (c-1)/2 = i →
      comp (s.arr i) (s.arr c) = false := by
    intro c hcn hc0 hpar
    have hthis := hh c hcn hc0 (by omega)
    rw [hpar] at hthis
    exact hthis
  have hperm2 : (entriesOf s2.arr (n-1) ++ [s.arr i]).Perm (entriesOf s.arr n) := by
    have hsucc : entriesOf s2.arr n = entriesOf s2.arr (n-1) ++ [s2.arr (n-1)] := by
      have hn' : n = (n-1) + 1 := by omega
      conv_lhs => rw [hn']
      rw [entriesOf_succ]
    rw [← hlast, ← hsucc, harr2]
    exact entriesOf_swapFun_perm s.arr i (n-1) n hi (by omega)
  split_ifs with hd hu
  · -- the inherited entry is less dominant than the removed one
    rw [hi_eval] at hd
    have hine : i ≠ n-1 := by
      intro he
      rw [← he, hc.1] at hd
      exact Bool.noConfusion hd
    refine ⟨rfl, ?_, bubble_down_indexOK comp (n-1) i s2 h2OK (le_refl (n-1)),
      ?_, ?_⟩
    · refine bubble_down_heap comp hc i 0 s2 (by omega) (by omega) ?_ ?_
      · intro c hcn hc0 hl0 hpar
        by_cases hci : c = i
        · rw [hci, harr_other ((i-1)/2) (by omega) (by omega), hi_eval]
          exact hc.2.2 _ _ _ (hh i hi (by omega) (by omega)) (hc.asymm hd)
        · rw [harr_other ((c-1)/2) hpar (by omega), harr_other c hci (by omega)]
          exact hh c (by omega) hc0 (by omega)
      · intro c hcn hpar hc0 hi0 hl
        rw [harr_other ((i-1)/2) (by omega) (by omega),
          harr_other c (by omega) (by omega)]
        exact hc.2.2 _ _ _ (hh i hi hi0 (by omega)) (hpedge c (by omega) hc0 hpar)
    · rw [bubble_down_idx_untouched comp (n-1) i s2 hknot2]
      exact hidx_k
    · exact ((bubble_down_perm comp (n-1) i s2 (le_refl (n-1))).append_right
        [s.arr i]).trans hperm2
  · -- the inherited entry is more dominant than the removed one
    rw [hi_eval] at hu
    have hine : i ≠ n-1 := by
      intro he
      rw [← he, hc.1] at hu
      exact Bool.noConfusion hu
    refine ⟨rfl, ?_, bubble_up_indexOK comp (n-1) i s2 h2OK (by omega), ?_, ?_⟩
    · refine bubble_up_heap comp hc i s2 (by omega) ?_ ?_
      · intro c hcn hc0 hci
        by_cases hpar : (c-1)/2 = i
        · rw [hpar, hi_eval, harr_other c hci (by omega)]
          exact hc.dom_not_dom hu (hpedge c (by omega) hc0 hpar)
        · rw [harr_other ((c-1)/2) hpar (by omega), harr_other c hci (by omega)]
          exact hh c (by omega) hc0 (by omega)
      · intro hi0 c hcn hc0 hpar
        rw [harr_other ((i-1)/2) (by omega) (by omega),
          harr_other c (by omega) (by omega)]
        exact hc.2.2 _ _ _ (hh i hi hi0 (by omega)) (hpedge c (by omega) hc0 hpar)
    · rw [bubble_up_idx_untouched comp (n-1) i s2
        (fun t ht => hknot2 t (by omega))]
      exact hidx_k
    · exact ((bubble_up_perm comp (n-1) i s2 (by omega)).append_right
        [s.arr i]).trans hperm2
  · -- dominance unchanged (or the last entry was removed): no sift
    refine ⟨rfl, ?_, h2OK, hidx_k, hperm2⟩
    by_cases hine : i = n-1
    · have harr_eq : s2.arr = s.arr := by
        rw [harr2, ← hine, swapFun_self]
      rw [harr_eq]
      exact heapFrom_mono comp hh (by omega)
    · intro c hcn hc0 hl0
      by_cases hci : c = i
      · rw [hci, harr_other ((i-1)/2) (by omega) (by omega), hi_eval]
        have hufalse : comp (s.arr i) (s.arr (n-1)) = false := by
          have hthis := Bool.eq_false_iff.mpr hu
          rw [hi_eval] at hthis
          exact hthis
        exact hc.2.2 _ _ _ (hh i hi (by omega) (by omega)) hufalse
      · by_cases hpar : (c-1)/2 = i
        · rw [hpar, hi_eval, harr_other c hci (by omega)]
          have hdfalse : comp (s.arr (n-1)) (s.arr i) = false := by
            have hthis := Bool.eq_false_iff.mpr hd
            rw [hi_eval] at hthis
            exact hthis
          exact hc.2.2 _ _ _ hdfalse (hpedge c (by omega) hc0 hpar)
        · rw [harr_other ((c-1)/2) hpar (by omega), harr_other c hci (by omega)]
          exact hh c (by omega) hc0 (by omega)

/-! ### Specification of `make` -/

theorem makeAux_spec (comp : P × K → P × K → Bool) (hc : StrictComp comp) (n : Nat) :
    ∀ j (s : State P K), j ≤ n → heapFrom comp s.arr n j →
      heapFrom comp (makeAux comp n j s).arr n 0 ∧
      (∀ N, indexOK s N → n ≤ N → indexOK (makeAux comp n j s) N) ∧
      (∀ m, n ≤ m →
        (entriesOf (makeAux comp n j s).arr m).Perm (entriesOf s.arr m)) := by
  intro j
  induction j with
  | zero =>
    intro s h0 hh
    exact ⟨hh, fun N hOK _ => hOK, fun m _ => List.Perm.refl _⟩
  | succ j IH =>
    intro s hj hh
    have hstep : heapFrom comp (bubble_down comp n j s).arr n j := by
      refine bubble_down_heap comp hc j j s (le_refl j) (by omega) ?_ ?_
      · intro c hcn hc0 hjc hne
        exact hh c hcn hc0 (by omega)
      · intro c hcn hpar hc0 hj0 hle
        exact absurd hle (by omega)
    obtain ⟨q1, q2, q3⟩ := IH (bubble_down comp n j s) (by omega) hstep
    refine ⟨q1, ?_, ?_⟩
    · intro N hOK hnN
      exact q2 N (bubble_down_indexOK comp n j s hOK hnN) hnN
    · intro m hm
      exact (q3 m hm).trans (bubble_down_perm comp n j s hm)

theorem make_spec (comp : P × K → P × K → Bool) (hc : StrictComp comp) {n : Nat}
    (s : State P K) :
    heapProp comp (make comp n s).arr n ∧
    (∀ N, indexOK s N → n ≤ N → indexOK (make comp n s) N) ∧
    (∀ m, n ≤ m → (entriesOf (make comp n s).arr m).Perm (entriesOf s.arr m)) := by
  by_cases hn : n = 0
  · subst hn
    rw [make, if_pos rfl]
    refine ⟨?_, fun N hOK _ => hOK, fun m _ => List.Perm.refl _⟩
    intro c hcn hc0 hl
    exact absurd hcn (by omega)
  · rw [make, if_neg hn]
    have hvac : heapFrom comp s.arr n n := by
      intro c hcn hc0 hl
      exact absurd hl (by omega)
    exact makeAux_spec comp hc n n s (le_refl n) hvac

/-- A sift-toward-leaves at a leaf slot (no child inside the range) does
nothing. -/
theorem bubbleDownAux_leaf (comp : P × K → P × K → Bool) (n j : Nat) (s : State P K)
    (hleaf : n ≤ 2*j+1) : bubbleDownAux comp n j s = s := by
  rw [bubbleDownAux]
  split_ifs with h1 h2
  · rfl
  · exfalso
    apply h2
    rw [downChild_eq,
      if_neg (show ¬(2*j+1 < n ∧ comp (s.arr j) (s.arr (2*j+1)) = true) from
        fun hx => absurd hx.1 (by omega)),
      if_neg (show ¬(2*j+2 < n ∧ comp (s.arr j) (s.arr (2*j+2)) = true) from
        fun hx => absurd hx.1 (by omega))]
  · rfl

theorem bubble_down_leaf (comp : P × K → P × K → Bool) (n j : Nat) (s : State P K)
    (hleaf : n ≤ 2*j+1) : bubble_down comp n j s = s := by
  rw [bubble_down]
  split_ifs with h1
  · exact bubbleDownAux_leaf comp n j s hleaf
  · rfl

theorem makeAux_skip_leaves (comp : P × K → P × K → Bool) (n : Nat) :
    ∀ j (s : State P K), n/2 ≤ j → makeAux comp n j s = makeFromLastInternal comp n s := by
  intro j
  induction j with
  | zero =>
    intro s h0
    rw [makeFromLastInternal, show n/2 = 0 by omega]
  | succ j IH =>
    intro s hj
    by_cases hj2 : n/2 ≤ j
    · rw [makeAux, bubble_down_leaf comp n j s (by omega)]
      exact IH s hj2
    · rw [makeFromLastInternal, show n/2 = j+1 by omega]

theorem make_eq_makeFromLastInternal (comp : P × K → P × K → Bool) (n : Nat)
    (s : State P K) : make comp n s = makeFromLastInternal comp n s := by
  by_cases hn : n = 0
  · subst hn
    rw [make, if_pos rfl, makeFromLastInternal]
    rfl
  · rw [make, if_neg hn]
    exact makeAux_skip_leaves comp n n s (by omega)

/-! ### Specification of `sort` -/

theorem sort_spec (comp : P × K → P × K → Bool) (hc : StrictComp comp) :
    ∀ (n : Nat) (s : State P K), heapProp comp s.arr n → indexOK s n →
      (entriesOf (sort comp n s).arr n).Perm (entriesOf s.arr n) ∧
      (∀ t, n ≤ t → (sort comp n s).arr t = s.arr t) ∧
      (∀ i j, i < j → j < n →
        comp ((sort comp n s).arr j) ((sort comp n s).arr i) = false) ∧
      (∀ k, liveKey s n k → (sort comp n s).idx k = -1) ∧
      (∀ k, ¬ liveKey s n k → (sort comp n s).idx k = s.idx k) := by
  intro n
  induction n with
  | zero =>
    intro s hh hOK
    refine ⟨List.Perm.refl _, fun t ht => rfl, ?_, ?_, fun k hk => rfl⟩
    · intro i j hij hj
      exact absurd hj (by omega)
    · rintro k ⟨t, ht, hkey⟩
      exact absurd ht (by omega)
  | succ n IH =>
    intro s hh hOK
    have hps := @pop_spec P K _ comp hc (n+1) s (by omega) hh hOK
    simp only [Nat.add_sub_cancel] at hps
    obtain ⟨p_heap, p_OK, p_last, p_hi, p_idx0, p_idxU, p_perm, p_dom⟩ := hps
    obtain ⟨q_perm, q_untouched, q_sorted, q_idxLive, q_idxAbs⟩ :=
      IH (pop comp (n+1) s) p_heap p_OK
    have hse : sort comp (n+1) s = sort comp n (pop comp (n+1) s) := by
      simp only [sort]
    rw [hse]
    have hlastv : (sort comp n (pop comp (n+1) s)).arr n = s.arr 0 := by
      rw [q_untouched n (le_refl n), p_last]
    have hmem_of : ∀ e, e ∈ entriesOf (pop comp (n+1) s).arr n →
        e ∈ entriesOf s.arr (n+1) := by
      intro e he
      exact p_perm.mem_iff.mp (List.mem_append.mpr (Or.inl he))
    refine ⟨?_, ?_, ?_, ?_, ?_⟩
    · rw [entriesOf_succ, hlastv]
      exact ((q_perm.append_right [s.arr 0]).trans p_perm)
    · intro t ht
      rw [q_untouched t (by omega), p_hi t (by omega)]
    · intro i j hij hj
      by_cases hjn : j = n
      · rw [hjn, hlastv]
        have hin : (sort comp n (pop comp (n+1) s)).arr i ∈
            entriesOf (pop comp (n+1) s).arr n :=
          q_perm.mem_iff.mp (mem_entriesOf _ n i (by omega))
        exact p_dom _ hin
      · exact q_sorted i j hij (by omega)
    · intro k hk
      by_cases hk0 : k = (s.arr 0).2
      · subst hk0
        have hnl : ¬ liveKey (pop comp (n+1) s) n ((s.arr 0).2) := by
          rintro ⟨t, ht, hkey⟩
          have := p_OK.1 t ht
          rw [hkey, p_idx0] at this
          omega
        rw [q_idxAbs _ hnl, p_idx0]
      · obtain ⟨t, ht, hkey⟩ := hk
        have hmem : s.arr t ∈ entriesOf (pop comp (n+1) s).arr n ++ [s.arr 0] :=
          p_perm.mem_iff.mpr (mem_entriesOf s.arr (n+1) t ht)
        rcases List.mem_append.mp hmem with hin | hin
        · obtain ⟨u, hu, hue⟩ := exists_of_mem_entriesOf hin
          refine q_idxLive k ⟨u, hu, ?_⟩
          rw [hue, hkey]
        · exfalso
          apply hk0
          rw [← hkey]
          have : s.arr t = s.arr 0 := List.mem_singleton.mp hin
          rw [this]
    · intro k hk
      have hnl : ¬ liveKey (pop comp (n+1) s) n k := by
        rintro ⟨t, ht, hkey⟩
        have hmem := hmem_of _ (mem_entriesOf (pop comp (n+1) s).arr n t ht)
        obtain ⟨u, hu, hue⟩ := exists_of_mem_entriesOf hmem
        exact hk ⟨u, hu, by rw [hue, hkey]⟩
      rw [q_idxAbs k hnl, p_idxU k hk]

/-! ### Termination: the loops meet explicit fuel bounds -/

theorem bubbleUpFuel_eq (comp : P × K → P × K → Bool) :
    ∀ (fuel i : Nat) (s : State P K), i < fuel →
      bubbleUpFuel comp fuel i s = some (bubbleUpAux comp i s) := by
  intro fuel
  induction fuel with
  | zero =>
    intro i s h
    exact absurd h (by omega)
  | succ fuel IH =>
    intro i s h
    rw [bubbleUpFuel, bubbleUpAux]
    split_ifs with hcond
    · obtain ⟨hi0, _⟩ := hcond
      exact IH ((i-1)/2) _ (by omega)
    · rfl

theorem bubbleDownFuel_eq (comp : P × K → P × K → Bool) (n : Nat) :
    ∀ (fuel i : Nat) (s : State P K), n - i < fuel →
      bubbleDownFuel comp n fuel i s = some (bubbleDownAux comp n i s) := by
  intro fuel
  induction fuel with
  | zero =>
    intro i s h
    exact absurd h (by omega)
  | succ fuel IH =>
    intro i s h
    rw [bubbleDownFuel, bubbleDownAux]
    split_ifs with h1 h2
    · rfl
    · have hmc := downChild_cases comp s.arr n i
      exact IH _ _ (by omega)
    · rfl

/-! ### Degenerate ranges and absent keys -/

theorem push_empty (comp : P × K → P × K → Bool) (s : State P K) :
    push comp 0 s = s := rfl

theorem pop_empty (comp : P × K → P × K → Bool) (s : State P K) :
    pop comp 0 s = s := rfl

theorem make_empty (comp : P × K → P × K → Bool) (s : State P K) :
    make comp 0 s = s := rfl

theorem sort_empty (comp : P × K → P × K → Bool) (s : State P K) :
    sort comp 0 s = s := rfl

theorem update_empty (comp : P × K → P × K → Bool) (s : State P K) (k : K) (v : P) :
    update comp 0 s k v = (false, s) := rfl

theorem pop_key_empty (comp : P × K → P × K → Bool) (s : State P K) (k : K) :
    pop_key comp 0 s k = (false, s) := rfl

theorem update_absent (comp : P × K → P × K → Bool) (n : Nat) (s : State P K)
    (k : K) (v : P) (hk : s.idx k = -1) : update comp n s k v = (false, s) := by
  by_cases hn : n = 0
  · subst hn
    rfl
  · simp only [update, hk, eq_self_iff_true, if_true, if_neg hn]

theorem pop_key_absent (comp : P × K → P × K → Bool) (n : Nat) (s : State P K)
    (k : K) (hk : s.idx k = -1) : pop_key comp n s k = (false, s) := by
  by_cases hn : n = 0
  · subst hn
    rfl
  · simp only [pop_key, hk, eq_self_iff_true, if_true, if_neg hn]

/-! ### Update with the stored priority is the identity -/

theorem update_idem (comp : P × K → P × K → Bool) (hc : StrictComp comp) {n : Nat}
    (s : State P K) {i : Nat} {v : P} {k : K} (hi : i < n) (he : s.arr i = (v, k))
    (hOK : indexOK s n) : update comp n s k v = (true, s) := by
  have hk : (s.arr i).2 = k := by rw [he]
  have hidx : s.idx k = (i : Int) := by
    rw [← hk]
    exact hOK.1 i hi
  have hg1 : (n = 0) = False := eq_false (by omega)
  have hg2 : (((i : Nat) : Int) = -1) = False := eq_false (by omega)
  have hnewE : (v, (s.arr i).2) = s.arr i := by rw [he]
  have hcond1 : comp (v, (s.arr i).2) (s.arr i) = false := by
    rw [hnewE]
    exact hc.1 _
  have hcond2 : comp (s.arr i) (v, (s.arr i).2) = false := by
    rw [hnewE]
    exact hc.1 _
  have hue : update comp n s k v =
      (if comp (v, (s.arr i).2) (s.arr i) = true
       then (true, bubble_down comp n i
         ⟨fun t => if t = i then (v, (s.arr i).2) else s.arr t, s.idx⟩)
       else if comp (s.arr i) (v, (s.arr i).2) = true
       then (true, bubble_up comp n i
         ⟨fun t => if t = i then (v, (s.arr i).2) else s.arr t, s.idx⟩)
       else (true, ⟨fun t => if t = i then (v, (s.arr i).2) else s.arr t, s.idx⟩)) := by
    simp only [update, hidx, Int.toNat_natCast, hg1, hg2, if_false,
      eq_self_iff_true, if_true]
  rw [hue, if_neg (by rw [hcond1]; exact Bool.noConfusion),
    if_neg (by rw [hcond2]; exact Bool.noConfusion)]
  have harr : (fun t => if t = i then (v, (s.arr i).2) else s.arr t) = s.arr := by
    funext t
    by_cases ht : t = i
    · rw [if_pos ht, hnewE, ht]
    · rw [if_neg ht]
  rw [harr]

/-! ### Concrete instances used by the witnesses -/

theorem natComp_strict : StrictComp natComp := by
  refine ⟨?_, ?_, ?_⟩
  · intro a
    show decide (a.1 < a.1) = false
    exact decide_eq_false (lt_irrefl _)
  · intro a b c hab hbc
    have h1 : a.1 < b.1 := of_decide_eq_true hab
    have h2 : b.1 < c.1 := of_decide_eq_true hbc
    show decide (a.1 < c.1) = true
    exact decide_eq_true (by omega)
  · intro a b c hab hbc
    have h1 : ¬ (a.1 < b.1) := of_decide_eq_false hab
    have h2 : ¬ (b.1 < c.1) := of_decide_eq_false hbc
    show decide (a.1 < c.1) = false
    exact decide_eq_false (by omega)

theorem sA_heap : heapProp natComp sA.arr 1 := by
  intro c h1 h2 h3
  exact absurd h1 (by omega)

theorem sA_indexOK : indexOK sA 1 := by
  constructor
  · intro i hi
    have h0 : i = 0 := by omega
    subst h0
    rfl
  · intro k hk
    have hk7 : k ≠ 7 := by
      intro he
      exact hk ⟨0, by omega, by rw [he]; rfl⟩
    show (if k = 7 then (0 : Int) else -1) = -1
    rw [if_neg hk7]

theorem sB_heap : heapProp natComp sB.arr 0 := by
  intro c h1 h2 h3
  exact absurd h1 (by omega)

theorem sB_indexOK : indexOK sB 0 := by
  constructor
  · intro i hi
    exact absurd hi (by omega)
  · intro k hk
    rfl

theorem sB_fresh : ¬ liveKey sB 0 ((sB.arr 0).2) := by
  rintro ⟨t, ht, hkey⟩
  exact absurd ht (by omega)

/-! ### The claims -/

/-- C1: from any state satisfying the heap property and index consistency
(for `push`: over the prior entries, the new entry already sitting at the
last slot under a key that is not yet live), each of the public operations
`push`, `pop`, `update` and `pop_key` produces a state in which, over the
resulting active range, no non-root slot dominates its parent, every live
key resolves to the slot holding it, and every dead key resolves to the
absent sentinel. -/
theorem claim_C1 (comp : P × K → P × K → Bool) (hc : StrictComp comp) :
    (∀ (n : Nat) (s : State P K), 0 < n → heapProp comp s.arr (n-1) →
      indexOK s (n-1) → ¬ liveKey s (n-1) ((s.arr (n-1)).2) →
      heapProp comp (push comp n s).arr n ∧ indexOK (push comp n s) n) ∧
    (∀ (n : Nat) (s : State P K), 0 < n → heapProp comp s.arr n → indexOK s n →
      heapProp comp (pop comp n s).arr (n-1) ∧ indexOK (pop comp n s) (n-1)) ∧
    (∀ (n : Nat) (s : State P K) (i : Nat) (k : K) (v : P), i < n →
      (s.arr i).2 = k → heapProp comp s.arr n → indexOK s n →
      heapProp comp (update comp n s k v).2.arr n ∧
      indexOK (update comp n s k v).2 n) ∧
    (∀ (n : Nat) (s : State P K) (i : Nat) (k : K), i < n →
      (s.arr i).2 = k → heapProp comp s.arr n → indexOK s n →
      heapProp comp (pop_key comp n s k).2.arr (n-1) ∧
      indexOK (pop_key comp n s k).2 (n-1)) := by
  refine ⟨?_, ?_, ?_, ?_⟩
  · intro n s hn hh hOK hfresh
    obtain ⟨h1, h2, _⟩ := push_spec comp hc s hn hh hOK hfresh
    exact ⟨h1, h2⟩
  · intro n s hn hh hOK
    obtain ⟨h1, h2, _⟩ := pop_spec comp hc s hn hh hOK
    exact ⟨h1, h2⟩
  · intro n s i k v hi hk hh hOK
    obtain ⟨_, h1, h2, _⟩ := update_spec comp hc s hi hk hh hOK v
    exact ⟨h1, h2⟩
  · intro n s i k hi hk hh hOK
    obtain ⟨_, h1, h2, _, _⟩ := pop_key_spec comp hc s hi hk hh hOK
    exact ⟨h1, h2⟩

/-- Witness: C1 applied to a strict comparator and concrete one-entry
states. -/
theorem claim_C1_witness :
    StrictComp natComp ∧
    (heapProp natComp (push natComp 1 sB).arr 1 ∧ indexOK (push natComp 1 sB) 1) ∧
    (heapProp natComp (pop natComp 1 sA).arr 0 ∧ indexOK (pop natComp 1 sA) 0) ∧
    (heapProp natComp (update natComp 1 sA 7 3).2.arr 1 ∧
      indexOK (update natComp 1 sA 7 3).2 1) ∧
    (heapProp natComp (pop_key natComp 1 sA 7).2.arr 0 ∧
      indexOK (pop_key natComp 1 sA 7).2 0) :=
  ⟨natComp_strict,
   (claim_C1 natComp natComp_strict).1 1 sB (by omega) sB_heap sB_indexOK sB_fresh,
   (claim_C1 natComp natComp_strict).2.1 1 sA (by omega) sA_heap sA_indexOK,
   (claim_C1 natComp natComp_strict).2.2.1 1 sA 0 7 3 (by omega) rfl sA_heap sA_indexOK,
   (claim_C1 natComp natComp_strict).2.2.2 1 sA 0 7 (by omega) rfl sA_heap sA_indexOK⟩

/-- C2: on a range satisfying both invariants, `sort` rearranges the range
in place into a permutation of the original entries that is monotonically
ordered by dominance (for all slots `i < j` the entry at `j` is not
dominated by the entry at `i`; the most dominant entry ends up last), and
afterwards every key that was live before the call resolves to the absent
sentinel. -/
theorem claim_C2 (comp : P × K → P × K → Bool) (hc : StrictComp comp)
    (n : Nat) (s : State P K) (hh : heapProp comp s.arr n) (hOK : indexOK s n) :
    (entriesOf (sort comp n s).arr n).Perm (entriesOf s.arr n) ∧
    (∀ i j, i < j → j < n →
      comp ((sort comp n s).arr j) ((sort comp n s).arr i) = false) ∧
    (∀ k, liveKey s n k → (sort comp n s).idx k = -1) := by
  obtain ⟨h1, _, h3, h4, _⟩ := sort_spec comp hc n s hh hOK
  exact ⟨h1, h3, h4⟩

/-- Witness: C2 applied to a concrete one-entry heap. -/
theorem claim_C2_witness :
    StrictComp natComp ∧ heapProp natComp sA.arr 1 ∧ indexOK sA 1 ∧
    ((entriesOf (sort natComp 1 sA).arr 1).Perm (entriesOf sA.arr 1) ∧
     (∀ i j, i < j → j < 1 →
       natComp ((sort natComp 1 sA).arr j) ((sort natComp 1 sA).arr i) = false) ∧
     (∀ k, liveKey sA 1 k → (sort natComp 1 sA).idx k = -1)) :=
  ⟨natComp_strict, sA_heap, sA_indexOK,
   claim_C2 natComp natComp_strict 1 sA sA_heap sA_indexOK⟩

/-- C3: on a non-empty consistent heap, `pop` swaps the root with the last
active entry together with their index cells, marks the outgoing key
absent, and sifts from the root over the shrunken range; afterwards the
heap property holds over the shrunken range, the extracted entry (the old
root) sits just past it, its key maps to the absent sentinel, and no
remaining entry dominates it. -/
theorem claim_C3 (comp : P × K → P × K → Bool) (hc : StrictComp comp)
    (n : Nat) (s : State P K) (hn : 0 < n)
    (hh : heapProp comp s.arr n) (hOK : indexOK s n) :
    pop comp n s = bubble_down comp (n-1) 0
      ⟨(swapState s 0 (n-1)).arr,
       fun k => if k = ((swapState s 0 (n-1)).arr (n-1)).2 then -1
                else (swapState s 0 (n-1)).idx k⟩ ∧
    (pop comp n s).arr (n-1) = s.arr 0 ∧
    (pop comp n s).idx ((s.arr 0).2) = -1 ∧
    heapProp comp (pop comp n s).arr (n-1) ∧
    (∀ j, j < n-1 → comp (s.arr 0) ((pop comp n s).arr j) = false) := by
  obtain ⟨h1, _, h3, _, h5, _, _, h8⟩ := pop_spec comp hc s hn hh hOK
  refine ⟨pop_eq comp s hn, h3, h5, h1, ?_⟩
  intro j hj
  exact h8 _ (mem_entriesOf (pop comp n s).arr (n-1) j hj)

/-- Witness: C3 applied to a concrete one-entry heap. -/
theorem claim_C3_witness :
    StrictComp natComp ∧ 0 < 1 ∧ heapProp natComp sA.arr 1 ∧ indexOK sA 1 ∧
    ((pop natComp 1 sA).arr 0 = sA.arr 0 ∧
     (pop natComp 1 sA).idx ((sA.arr 0).2) = -1 ∧
     heapProp natComp (pop natComp 1 sA).arr 0) :=
  ⟨natComp_strict, by omega, sA_heap, sA_indexOK,
   ⟨(claim_C3 natComp natComp_strict 1 sA (by omega) sA_heap sA_indexOK).2.1,
    (claim_C3 natComp natComp_strict 1 sA (by omega) sA_heap sA_indexOK).2.2.1,
    (claim_C3 natComp natComp_strict 1 sA (by omega) sA_heap sA_indexOK).2.2.2.1⟩⟩

/-- C4: on a consistent heap in which key `k` is live at slot `i`,
`pop_key k` returns true, leaves exactly the original multiset minus the
one entry carrying `k` on the range shrunk by one, maps `k` to the absent
sentinel, and reestablishes both invariants (including the case where the
entry was the last active one). -/
theorem claim_C4 (comp : P × K → P × K → Bool) (hc : StrictComp comp)
    (n i : Nat) (s : State P K) (k : K) (hi : i < n) (hk : (s.arr i).2 = k)
    (hh : heapProp comp s.arr n) (hOK : indexOK s n) :
    (pop_key comp n s k).1 = true ∧
    heapProp comp (pop_key comp n s k).2.arr (n-1) ∧
    indexOK (pop_key comp n s k).2 (n-1) ∧
    (pop_key comp n s k).2.idx k = -1 ∧
    ((entriesOf (pop_key comp n s k).2.arr (n-1)) ++ [s.arr i]).Perm
      (entriesOf s.arr n) :=
  pop_key_spec comp hc s hi hk hh hOK

/-- Witness: C4 removing the only key of a concrete one-entry heap. -/
theorem claim_C4_witness :
    StrictComp natComp ∧ 0 < 1 ∧ (sA.arr 0).2 = 7 ∧
    ((pop_key natComp 1 sA 7).1 = true ∧
     heapProp natComp (pop_key natComp 1 sA 7).2.arr 0 ∧
     indexOK (pop_key natComp 1 sA 7).2 0 ∧
     (pop_key natComp 1 sA 7).2.idx 7 = -1 ∧
     ((entriesOf (pop_key natComp 1 sA 7).2.arr 0) ++ [sA.arr 0]).Perm
       (entriesOf sA.arr 1)) :=
  ⟨natComp_strict, by omega, rfl,
   claim_C4 natComp natComp_strict 1 0 sA 7 (by omega) rfl sA_heap sA_indexOK⟩

/-- C5: on an empty range, `push`, `pop`, `make` and `sort` return leaving
the state unchanged, and `update`/`pop_key` return false without mutating
anything; `update` and `pop_key` likewise return false and mutate nothing
whenever the index map resolves the given key to the absent sentinel. -/
theorem claim_C5 (comp : P × K → P × K → Bool) :
    (∀ s : State P K, push comp 0 s = s) ∧
    (∀ s : State P K, pop comp 0 s = s) ∧
    (∀ s : State P K, make comp 0 s = s) ∧
    (∀ s : State P K, sort comp 0 s = s) ∧
    (∀ (s : State P K) (k : K) (v : P), update comp 0 s k v = (false, s)) ∧
    (∀ (s : State P K) (k : K), pop_key comp 0 s k = (false, s)) ∧
    (∀ (n : Nat) (s : State P K) (k : K) (v : P), s.idx k = -1 →
      update comp n s k v = (false, s)) ∧
    (∀ (n : Nat) (s : State P K) (k : K), s.idx k = -1 →
      pop_key comp n s k = (false, s)) :=
  ⟨fun s => push_empty comp s,
   fun s => pop_empty comp s,
   fun s => make_empty comp s,
   fun s => sort_empty comp s,
   fun s k v => update_empty comp s k v,
   fun s k => pop_key_empty comp s k,
   fun n s k v hk => update_absent comp n s k v hk,
   fun n s k hk => pop_key_absent comp n s k hk⟩

/-- Witness: C5 at a concrete state, both for the empty range and for an
absent key on a non-empty range. -/
theorem claim_C5_witness :
    push natComp 0 sA = sA ∧
    (sA.idx 99 = -1 ∧ update natComp 1 sA 99 5 = (false, sA)) ∧
    (sA.idx 99 = -1 ∧ pop_key natComp 1 sA 99 = (false, sA)) :=
  ⟨(claim_C5 natComp).1 sA,
   ⟨rfl, (claim_C5 natComp).2.2.2.2.2.2.1 1 sA 99 5 rfl⟩,
   ⟨rfl, (claim_C5 natComp).2.2.2.2.2.2.2 1 sA 99 rfl⟩⟩

/-- C6: with the fresh entry already placed at the last slot, `push` sets
the index map entry for its key to that slot, sifts the entry toward the
root, and (given the heap property over the prior entries and the key not
already live) reestablishes both invariants over the whole range, keeping
the multiset of entries. -/
theorem claim_C6 (comp : P × K → P × K → Bool) (hc : StrictComp comp)
    (n : Nat) (s : State P K) (hn : 0 < n)
    (hh : heapProp comp s.arr (n-1)) (hOK : indexOK s (n-1))
    (hfresh : ¬ liveKey s (n-1) ((s.arr (n-1)).2)) :
    push comp n s = bubble_up comp n (n-1)
      ⟨s.arr, fun k => if k = (s.arr (n-1)).2 then (n : Int) - 1 else s.idx k⟩ ∧
    heapProp comp (push comp n s).arr n ∧
    indexOK (push comp n s) n ∧
    (entriesOf (push comp n s).arr n).Perm (entriesOf s.arr n) := by
  obtain ⟨h1, h2, h3⟩ := push_spec comp hc s hn hh hOK hfresh
  exact ⟨push_eq comp s hn, h1, h2, h3⟩

/-- Witness: C6 pushing a fresh entry into an empty heap. -/
theorem claim_C6_witness :
    StrictComp natComp ∧ 0 < 1 ∧ heapProp natComp sB.arr 0 ∧ indexOK sB 0 ∧
    ¬ liveKey sB 0 ((sB.arr 0).2) ∧
    (heapProp natComp (push natComp 1 sB).arr 1 ∧ indexOK (push natComp 1 sB) 1 ∧
     (entriesOf (push natComp 1 sB).arr 1).Perm (entriesOf sB.arr 1)) :=
  ⟨natComp_strict, by omega, sB_heap, sB_indexOK, sB_fresh,
   ⟨(claim_C6 natComp natComp_strict 1 sB (by omega) sB_heap sB_indexOK sB_fresh).2.1,
    (claim_C6 natComp natComp_strict 1 sB (by omega) sB_heap sB_indexOK sB_fresh).2.2.1,
    (claim_C6 natComp natComp_strict 1 sB (by omega) sB_heap sB_indexOK sB_fresh).2.2.2⟩⟩

/-- C7: `make` is a no-op on an empty range, its descending loop over all
slots is the same function as sifting-toward-leaves from the last internal
(non-leaf) slot down through the root (the skipped calls are on leaves and
do nothing), and afterwards, given index consistency beforehand, the heap
property holds over the full range (and index consistency is preserved). -/
theorem claim_C7 (comp : P × K → P × K → Bool) (hc : StrictComp comp) :
    (∀ s : State P K, make comp 0 s = s) ∧
    (∀ (n : Nat) (s : State P K), make comp n s = makeFromLastInternal comp n s) ∧
    (∀ (n : Nat) (s : State P K), indexOK s n →
      heapProp comp (make comp n s).arr n ∧ indexOK (make comp n s) n) := by
  refine ⟨fun s => rfl, fun n s => make_eq_makeFromLastInternal comp n s, ?_⟩
  intro n s hOK
  exact ⟨(make_spec comp hc s).1, (make_spec comp hc s).2.1 n hOK (le_refl n)⟩

/-- Witness: C7 at a concrete one-entry state. -/
theorem claim_C7_witness :
    StrictComp natComp ∧ make natComp 0 sA = sA ∧
    make natComp 1 sA = makeFromLastInternal natComp 1 sA ∧
    (indexOK sA 1 ∧ heapProp natComp (make natComp 1 sA).arr 1 ∧
      indexOK (make natComp 1 sA) 1) :=
  ⟨natComp_strict, (claim_C7 natComp natComp_strict).1 sA,
   (claim_C7 natComp natComp_strict).2.1 1 sA,
   ⟨sA_indexOK,
    ((claim_C7 natComp natComp_strict).2.2 1 sA sA_indexOK).1,
    ((claim_C7 natComp natComp_strict).2.2 1 sA sA_indexOK).2⟩⟩

/-- C8: on a consistent heap in which key `k` is live with stored priority
`v`, and for a strict (irreflexive) comparator, `update k v` returns true
and leaves the whole state - entries, their order, and the index map -
unchanged. -/
theorem claim_C8 (comp : P × K → P × K → Bool) (hc : StrictComp comp)
    (n i : Nat) (s : State P K) (v : P) (k : K) (hi : i < n)
    (he : s.arr i = (v, k)) (hh : heapProp comp s.arr n) (hOK : indexOK s n) :
    update comp n s k v = (true, s) :=
  update_idem comp hc s hi he hOK

/-- Witness: C8 rewriting the stored priority of the only key of a
concrete one-entry heap. -/
theorem claim_C8_witness :
    StrictComp natComp ∧ 0 < 1 ∧ sA.arr 0 = (5, 7) ∧
    update natComp 1 sA 7 5 = (true, sA) :=
  ⟨natComp_strict, by omega, rfl,
   claim_C8 natComp natComp_strict 1 0 sA 5 7 (by omega) rfl sA_heap sA_indexOK⟩

/-- C9: both rebalance loops terminate with explicit fuel bounds - the
sift-toward-root loop needs at most `i + 1` iterations because the parent
index strictly decreases, and the sift-toward-leaves loop over range `n`
needs strictly more than `n - i` fuel never to run out because the selected
child index strictly increases; the public operations are built from these
primitives by structural composition and therefore also run to
completion. -/
theorem claim_C9 (comp : P × K → P × K → Bool) :
    (∀ (i : Nat) (s : State P K),
      bubbleUpFuel comp (i+1) i s = some (bubbleUpAux comp i s)) ∧
    (∀ (n fuel i : Nat) (s : State P K), n - i < fuel →
      bubbleDownFuel comp n fuel i s = some (bubbleDownAux comp n i s)) ∧
    (∀ (f : Nat → P × K) (n i : Nat), downChild comp f n i ≠ i →
      i < downChild comp f n i ∧ downChild comp f n i < n) ∧
    (∀ i : Nat, 0 < i → (i-1)/2 < i) := by
  refine ⟨?_, ?_, ?_, ?_⟩
  · intro i s
    exact bubbleUpFuel_eq comp (i+1) i s (by omega)
  · intro n fuel i s h
    exact bubbleDownFuel_eq comp n fuel i s h
  · intro f n i h
    have hmc := downChild_cases comp f n i
    omega
  · intro i h
    omega

/-- Witness: C9's fuel bounds at a concrete state. -/
theorem claim_C9_witness :
    bubbleUpFuel natComp 1 0 sA = some (bubbleUpAux natComp 0 sA) ∧
    (1 - 0 < 2 ∧
      bubbleDownFuel natComp 1 2 0 sA = some (bubbleDownAux natComp 1 0 sA)) ∧
    (0 < 1 ∧ (1-1)/2 < 1) :=
  ⟨(claim_C9 natComp).1 0 sA,
   ⟨by omega, (claim_C9 natComp).2.1 1 2 0 sA (by omega)⟩,
   ⟨by omega, (claim_C9 natComp).2.2.2 1 (by omega)⟩⟩

/-- C10: after a pop on a non-empty range the extracted entry is not
destroyed - it sits at slot `end - 1`, just past the shrunken range, with
its key mapped to the absent sentinel, and storage at or beyond the old
range is untouched; `sort` is exactly the iteration of `pop` with a
shrinking range, and it too leaves every slot at or beyond the range in
place. -/
theorem claim_C10 (comp : P × K → P × K → Bool) (hc : StrictComp comp) :
    (∀ (n : Nat) (s : State P K), 0 < n → heapProp comp s.arr n → indexOK s n →
      (pop comp n s).arr (n-1) = s.arr 0 ∧
      (pop comp n s).idx ((s.arr 0).2) = -1 ∧
      (∀ t, n ≤ t → (pop comp n s).arr t = s.arr t)) ∧
    (∀ (n : Nat) (s : State P K),
      sort comp (n+1) s = sort comp n (pop comp (n+1) s)) ∧
    (∀ (n : Nat) (s : State P K), heapProp comp s.arr n → indexOK s n →
      ∀ t, n ≤ t → (sort comp n s).arr t = s.arr t) := by
  refine ⟨?_, ?_, ?_⟩
  · intro n s hn hh hOK
    obtain ⟨_, _, h3, h4, h5, _, _, _⟩ := pop_spec comp hc s hn hh hOK
    exact ⟨h3, h5, h4⟩
  · intro n s
    simp only [sort]
  · intro n s hh hOK
    exact (sort_spec comp hc n s hh hOK).2.1

/-- Witness: C10 at a concrete one-entry heap. -/
theorem claim_C10_witness :
    StrictComp natComp ∧ 0 < 1 ∧ heapProp natComp sA.arr 1 ∧ indexOK sA 1 ∧
    ((pop natComp 1 sA).arr 0 = sA.arr 0 ∧
     (pop natComp 1 sA).idx ((sA.arr 0).2) = -1 ∧
     (∀ t, 1 ≤ t → (pop natComp 1 sA).arr t = sA.arr t)) ∧
    sort natComp 1 sA = sort natComp 0 (pop natComp 1 sA) :=
  ⟨natComp_strict, by omega, sA_heap, sA_indexOK,
   (claim_C10 natComp natComp_strict).1 1 sA (by omega) sA_heap sA_indexOK,
   (claim_C10 natComp natComp_strict).2.1 0 sA⟩

end IHeap
